import Mathlib

/-!
Shallow embedding of the order-simulation core (`orders_simulation/` package:
`kitchendata.py`, `orderstate.py`, `kitchen.py`).

Timestamps and order values are modelled as rationals; Python `time.time()`
reads become explicit `now` parameters (one per read, shared where the source
shares a single read).  Python `Optional[float]` becomes `Option ℚ`, and the
source's truthiness test `x if x else d` on an optional float is modelled by
`pyOr`, which treats both `None` and `0.0` as absent.
-/

namespace OrdersSim

/-- `kitchendata.OVERFLOW`. -/
def OVERFLOW : String := "overflow"

/-- `kitchendata.WASTE`. -/
def WASTE : String := "waste"

/-- `kitchendata.shelf_types`. -/
def shelf_types : List String := ["hot", "cold", "frozen"]

/-- `kitchendata.Order` (immutable dataclass). -/
structure Order where
  id : String
  name : String
  temp : String
  shelfLife : ℤ
  decayRate : ℚ
deriving DecidableEq

/-- `kitchendata.Config` (immutable dataclass).  Note: the source dataclass has
exactly these four fields; in particular it has no `cleanup_delay` field, even
though `Kitchen.cleanup` reads `self.config.cleanup_delay`.  The capacity dict
is modelled as a total function on shelf names. -/
structure Config where
  capacity : String → ℕ
  intake_orders_per_sec : ℤ
  pickup_min_sec : ℤ
  pickup_max_sec : ℤ

/-- The field names of the `Config` dataclass in `kitchendata.py`, in
declaration order.  `cleanup_delay` is not among them. -/
def configFields : List String := ["capacity", "intake_orders_per_sec", "pickup_min_sec", "pickup_max_sec"]

/-- `Config(**config)` in `load_config` succeeds iff the JSON object's keys are
exactly the dataclass fields: an unexpected keyword raises `TypeError` (caught,
`load_config` returns `None`), and a missing field (none has a default) also
raises.  JSON object keys are distinct, so acceptance is two-sided inclusion. -/
def configKwargsAccepted (keys : List String) : Bool :=
  keys.all (fun s => s ∈ configFields) && configFields.all (fun f => f ∈ keys)

/-- `load_config`'s shelf-name check on `cfg.capacity.keys()`: Python compares
`sorted(shelf_types + [OVERFLOW]) == sorted(keys)`, i.e. equality as multisets. -/
def capacityKeysAccepted (capacityKeys : List String) : Bool :=
  decide (capacityKeys.Perm (shelf_types ++ [OVERFLOW]))

/-- `load_config` accepts a config JSON object iff `Config(**config)` succeeds
and the capacity keys are exactly the four shelves. -/
def load_config_accepts (keys capacityKeys : List String) : Bool :=
  configKwargsAccepted keys && capacityKeysAccepted capacityKeys

/-- Python `a if a else b` for an optional float `a`: both `None` and `0.0`
are falsy. -/
def pyOr (a : Option ℚ) (b : ℚ) : ℚ :=
  match a with
  | some v => if v = 0 then b else v
  | none => b

/-- `orderstate.ShelfHistory` dataclass. -/
structure ShelfHistory where
  shelf : String
  added_at : ℚ
  removed_at : Option ℚ := none
  current_value : Option ℚ := none
deriving DecidableEq

/-- `ShelfHistory.__init__(shelf)`: records the construction-time clock read in
`added_at`, leaves `removed_at`/`current_value` unset. -/
def ShelfHistory.init (shelf : String) (now : ℚ) : ShelfHistory :=
  { shelf := shelf, added_at := now }

/-- Out-of-range placeholder for `history[-1]`/`history[-2]` on lists too short
for the access (where CPython would raise `IndexError`); unreachable for the
states the program builds, whose histories are non-empty. -/
def dummySeg : ShelfHistory :=
  { shelf := "", added_at := 0 }

/-- `orderstate.OrderState` dataclass. -/
structure OrderState where
  order : Order
  history : List ShelfHistory
  pickup_sec : ℤ
  last_value : Option ℚ := none
deriving DecidableEq

/-- `OrderState.__init__(order, init_state, pickup_sec)`. -/
def OrderState.init (order : Order) (init_state : ShelfHistory) (pickup_sec : ℤ) : OrderState :=
  { order := order, history := [init_state], pickup_sec := pickup_sec }

/-- `self.history[-1]`. -/
def OrderState.lastSeg (s : OrderState) : ShelfHistory :=
  s.history.getLastD dummySeg

/-- `OrderState.current_shelf`. -/
def OrderState.current_shelf (s : OrderState) : String :=
  s.lastSeg.shelf

/-- `OrderState.closed`: `history[-1].removed_at != None` (a `None` test, not a
truthiness test). -/
def OrderState.closed (s : OrderState) : Bool :=
  s.lastSeg.removed_at.isSome

/-- `OrderState.current_age`: note the source tests `if removed_at:` — a
truthiness test, so a recorded `removed_at` of exactly `0.0` falls back to the
clock read. -/
def OrderState.current_age (s : OrderState) (now : ℚ) : ℚ :=
  pyOr s.lastSeg.removed_at now - s.lastSeg.added_at

/-- `OrderState.ages`: closed prefix ages from recorded timestamps, plus
`current_age` for the last segment.  A `None` `removed_at` on a non-last
segment would raise `TypeError` in CPython; modelled as `Option.getD 0`
(unreachable: non-last segments are always closed in program states). -/
def OrderState.ages (s : OrderState) (now : ℚ) : List ℚ :=
  (s.history.dropLast.map (fun h => h.removed_at.getD 0 - h.added_at)) ++ [s.current_age now]

/-- `OrderState.decay_modifiers`. -/
def OrderState.decay_modifiers (s : OrderState) : List ℚ :=
  s.history.map (fun h => if s.order.temp = h.shelf then 1 else 2)

/-- `OrderState.decay_rates`. -/
def OrderState.decay_rates (s : OrderState) : List ℚ :=
  s.decay_modifiers.map (fun m => s.order.decayRate * m)

/-- `OrderState.total_age`. -/
def OrderState.total_age (s : OrderState) (now : ℚ) : ℚ :=
  (s.ages now).sum

/-- `OrderState.value`. -/
def OrderState.value (s : OrderState) (now : ℚ) : ℚ :=
  1 - (List.zipWith (· * ·) (s.ages now) s.decay_rates).sum / (s.order.shelfLife : ℚ)

/-- `OrderState.ttl`. -/
def OrderState.ttl (s : OrderState) (now : ℚ) : ℚ :=
  ((s.order.shelfLife : ℚ) -
      (List.zipWith (· * ·) (s.ages now).dropLast s.decay_rates.dropLast).sum) /
    s.decay_rates.getLastD 0

/-- `OrderState.pickup_ttl`. -/
def OrderState.pickup_ttl (s : OrderState) (now : ℚ) : ℚ :=
  s.ttl now - ((s.pickup_sec : ℚ) - (s.ages now).sum)

/-- Replace the last element of a list (in-place mutation of `history[-1]`). -/
def modifyLastSeg (l : List ShelfHistory) (f : ShelfHistory → ShelfHistory) : List ShelfHistory :=
  match l with
  | [] => []
  | [a] => [f a]
  | a :: b :: rest => a :: modifyLastSeg (b :: rest) f

/-- `OrderState.close(value, removed_at)`.  `now` models the `time.time()`
read(s) the call performs.  Mirrors the source exactly: a no-op when already
closed; otherwise `removed_at` is stored through a truthiness default, then
`current_value` is recomputed from the already-mutated state when `value` is
falsy, and `last_value` mirrors the stored closing value. -/
def OrderState.close (s : OrderState) (value removed_at : Option ℚ) (now : ℚ) : OrderState :=
  if s.closed then s
  else
    let rt := pyOr removed_at now
    let s1 : OrderState :=
      { s with history := modifyLastSeg s.history (fun h => { h with removed_at := some rt }) }
    let cv := pyOr value (s1.value now)
    { s1 with
        history := modifyLastSeg s1.history (fun h => { h with current_value := some cv }),
        last_value := some cv }

/-- `OrderState.move(state, value)`: one `now` read serves both the closing
timestamp and the new segment's `added_at` (the source overwrites the freshly
constructed segment's `added_at` with the same `now`). -/
def OrderState.move (s : OrderState) (shelf : String) (value : Option ℚ) (now : ℚ) : OrderState :=
  let s1 := s.close value (some now) now
  { s1 with history := s1.history ++ [ShelfHistory.init shelf now] }

/-- `OrderState.move_to_waste(value)`: move to `WASTE`, close the new segment
immediately (same `now`), then overwrite the waste segment's `current_value`
with the previous segment's recorded value.  Note the source does not update
`last_value` after this overwrite. -/
def OrderState.move_to_waste (s : OrderState) (value : Option ℚ) (now : ℚ) : OrderState :=
  let s1 := s.move WASTE value now
  let s2 := s1.close none (some now) now
  let prev := s2.history.dropLast.getLastD dummySeg
  { s2 with
      history := modifyLastSeg s2.history (fun h => { h with current_value := prev.current_value }) }

/-- `sys.maxsize` on a 64-bit CPython, the initial minimum in `min_value`. -/
def MAXINT : ℚ := 2 ^ 63 - 1

/-- One iteration of `min_value`'s loop: keep the first entry strictly below
the running minimum (`none` models `order_num` still unassigned, with the
running minimum at its initial `MAXINT`). -/
def minStep (acc : Option (ℕ × ℚ)) (p : ℕ × ℚ) : Option (ℕ × ℚ) :=
  if p.2 < (match acc with | some q => q.2 | none => MAXINT) then some p else acc

/-- `kitchen.min_value`: first-strict-minimum scan starting from `MAXINT`.
`none` models the `UnboundLocalError` raised when `order_num` is never
assigned (empty dict, or all metrics ≥ `MAXINT`). -/
def min_value (l : List (ℕ × ℚ)) : Option (ℕ × ℚ) :=
  l.foldl minStep none

/-- `kitchen.Kitchen`: the lock-protected shared state.  `orders_state` is the
insertion-ordered dict `order_num -> OrderState`; `dispatch_events` records,
per order number, whether its cancellation `Event` has been set. -/
structure Kitchen where
  config : Config
  orders_state : List (ℕ × OrderState)
  dispatch_events : ℕ → Bool

/-- `Kitchen.__init__`. -/
def Kitchen.init (config : Config) : Kitchen :=
  { config := config, orders_state := [], dispatch_events := fun _ => false }

/-- `Kitchen.terminate_delivery`: set the order's cancellation event. -/
def Kitchen.terminate_delivery (k : Kitchen) (num : ℕ) : Kitchen :=
  { k with dispatch_events := fun n => if n = num then true else k.dispatch_events n }

/-- `Kitchen.active_orders`: the orders whose state is not closed. -/
def Kitchen.active_orders (k : Kitchen) : List (ℕ × OrderState) :=
  k.orders_state.filter (fun p => !p.2.closed)

/-- `Kitchen.waste_orders`. -/
def Kitchen.waste_orders (k : Kitchen) : List (ℕ × OrderState) :=
  k.orders_state.filter (fun p => p.2.current_shelf = WASTE)

/-- `Kitchen.shelf_orders`: active orders on a particular shelf. -/
def Kitchen.shelf_orders (k : Kitchen) (shelf : String) : List (ℕ × OrderState) :=
  k.active_orders.filter (fun p => p.2.current_shelf = shelf)

/-- `Kitchen.count_shelves()[s]`: the multiset of shelf names contributed by
active orders, plus one `WASTE` per historical waste order, evaluated at `s`. -/
def Kitchen.countShelf (k : Kitchen) (s : String) : ℕ :=
  (k.active_orders.filter (fun p => p.2.current_shelf = s)).length +
    (if s = WASTE then k.waste_orders.length else 0)

/-- Python `self.orders_state[num].f(...)`-style in-place mutation of one dict
entry. -/
def updateOrder (l : List (ℕ × OrderState)) (num : ℕ) (f : OrderState → OrderState) :
    List (ℕ × OrderState) :=
  l.map (fun p => if p.1 = num then (p.1, f p.2) else p)

/-- `Kitchen.find_recoverable_orders`: overflow orders whose home shelf has
spare capacity, with that shelf's utilization as the metric. -/
def Kitchen.find_recoverable_orders (k : Kitchen) : List (ℕ × ℚ) :=
  (k.shelf_orders OVERFLOW).filterMap (fun p =>
    if k.countShelf p.2.order.temp < k.config.capacity p.2.order.temp then
      some (p.1, (k.countShelf p.2.order.temp : ℚ) / (k.config.capacity p.2.order.temp : ℚ))
    else none)

/-- `Kitchen.recover_from_overflow`: move the recoverable order with lowest
home-shelf utilization back to its home shelf; returns how many orders were
recovered.  `none` models the unreachable `UnboundLocalError` from `min_value`
on a non-empty dict with no metric below `MAXINT`. -/
def Kitchen.recover_from_overflow (k : Kitchen) (now : ℚ) : Option (Kitchen × ℕ) :=
  let recoverable := k.find_recoverable_orders
  if recoverable.isEmpty then some (k, 0)
  else
    match min_value recoverable with
    | none => none
    | some (num, _) =>
      let os := updateOrder k.orders_state num (fun st => st.move st.order.temp none now)
      some ({ k with orders_state := os }, 1)

/-- `Kitchen.make_room`: the allocator/evictor, run under the lock.  `none`
models an in-flight crash (`UnboundLocalError` from `min_value` when the
eviction step finds no active overflow order). -/
def Kitchen.make_room (k : Kitchen) (desired : String) (now : ℚ) : Option (Kitchen × String) :=
  if k.countShelf desired < k.config.capacity desired then some (k, desired)
  else if k.countShelf OVERFLOW < k.config.capacity OVERFLOW then some (k, OVERFLOW)
  else
    match k.recover_from_overflow now with
    | none => none
    | some (k1, n) =>
      if n = 0 then
        match min_value ((k1.shelf_orders OVERFLOW).map (fun p => (p.1, p.2.pickup_ttl now))) with
        | none => none
        | some (num, _) =>
          let os := updateOrder k1.orders_state num (fun st => st.move_to_waste none now)
          some (Kitchen.terminate_delivery { k1 with orders_state := os } num, OVERFLOW)
      else some (k1, OVERFLOW)

/-- One iteration of `remove_unhealty`'s loop over the snapshot of active
orders: recompute the order's value and, when it is ≤ 0, move it to waste with
that value and signal its courier. -/
def ruStep (now : ℚ) (acc : Kitchen × ℕ × ℕ) (p : ℕ × OrderState) : Kitchen × ℕ × ℕ :=
  let val := p.2.value now
  if val ≤ 0 then
    let os := updateOrder acc.1.orders_state p.1 (fun st => st.move_to_waste (some val) now)
    (Kitchen.terminate_delivery { acc.1 with orders_state := os } p.1,
      acc.2.1 + 1, acc.2.2 + 1)
  else (acc.1, acc.2.1 + 1, acc.2.2)

/-- `Kitchen.remove_unhealty`: sweep a snapshot of the active orders, wasting
each one whose value is ≤ 0 and signalling its courier.  One `now` models the
clock reads of one sweep.  Returns the kitchen plus the (active, expired)
counters. -/
def Kitchen.remove_unhealty (k : Kitchen) (now : ℚ) : Kitchen × ℕ × ℕ :=
  k.active_orders.foldl (ruStep now) (k, 0, 0)

/-- The under-lock body of one `Kitchen.cleanup` cycle: remove unhealthy
orders, then attempt one recovery from overflow. -/
def Kitchen.cleanup_cycle (k : Kitchen) (now : ℚ) : Option Kitchen :=
  match (k.remove_unhealty now).1.recover_from_overflow now with
  | none => none
  | some (k2, _) => some k2

/-- Rest of the `fulfill_order` lock section after `make_room`: insert the new
`OrderState` on the chosen shelf and register a fresh, unset cancellation
`Event` under the same order number. -/
def fulfillInsert (k1 : Kitchen) (num : ℕ) (order : Order) (pickup : ℤ)
    (shelf : String) (now : ℚ) : Kitchen :=
  let st := OrderState.init order (ShelfHistory.init shelf now) pickup
  { k1 with
      orders_state := k1.orders_state ++ [(num, st)],
      dispatch_events := fun n => if n = num then false else k1.dispatch_events n }

/-- The `dispatch_order` lock section: if the order is already on waste, only
log; otherwise close it with default arguments. -/
def dispatchFinalize (k : Kitchen) (num : ℕ) (st : OrderState) (now : ℚ) : Kitchen :=
  if st.current_shelf = WASTE then k
  else { k with orders_state := updateOrder k.orders_state num (fun s0 => s0.close none none now) }

/-- One lock-protected transition of the kitchen: the under-lock section of
`fulfill_order`, one `cleanup` cycle, or the under-lock section of
`dispatch_order`.  `fulfill` requires a fresh order number (intake enumerates
orders with consecutive integers) and an input-validated temperature;
`pickup` and every `now` are arbitrary (the clock and `random.randint` are
abstracted as parameters). -/
inductive Step : Kitchen → Kitchen → Prop where
  | fulfill (k : Kitchen) (num : ℕ) (order : Order) (pickup : ℤ) (now : ℚ)
      (k1 : Kitchen) (shelf : String)
      (hfresh : ∀ p ∈ k.orders_state, p.1 ≠ num)
      (htemp : order.temp ∈ shelf_types)
      (hmr : k.make_room order.temp now = some (k1, shelf)) :
      Step k (fulfillInsert k1 num order pickup shelf now)
  | cleanup (k : Kitchen) (now : ℚ) (k1 : Kitchen)
      (h : k.cleanup_cycle now = some k1) : Step k k1
  | dispatch (k : Kitchen) (num : ℕ) (st : OrderState) (now : ℚ)
      (hmem : (num, st) ∈ k.orders_state) :
      Step k (dispatchFinalize k num st now)

/-- States reachable from a freshly constructed kitchen through lock-protected
transitions (i.e. the states observable at lock releases). -/
def Reachable (config : Config) (k : Kitchen) : Prop :=
  Relation.ReflTransGen Step (Kitchen.init config) k

/-- Per-order-state operations actually performed by the kitchen: `close` with
any arguments (courier finalization), and `move` / `move_to_waste`, which every
call site (`recover_from_overflow`, `remove_unhealty`, `make_room`) applies
only to active (non-closed) states. -/
inductive SReach : OrderState → Prop where
  | init (order : Order) (shelf : String) (now : ℚ) (pickup : ℤ) :
      SReach (OrderState.init order (ShelfHistory.init shelf now) pickup)
  | close (s : OrderState) (v r : Option ℚ) (now : ℚ) :
      SReach s → SReach (s.close v r now)
  | move (s : OrderState) (sh : String) (v : Option ℚ) (now : ℚ) :
      SReach s → s.closed = false → SReach (s.move sh v now)
  | mtw (s : OrderState) (v : Option ℚ) (now : ℚ) :
      SReach s → s.closed = false → SReach (s.move_to_waste v now)

/-- Spec invariant I2: adjacent history segments share one timestamp. -/
def Chained (l : List ShelfHistory) : Prop :=
  ∀ i, i + 1 < l.length →
    (l.getD i dummySeg).removed_at = some ((l.getD (i + 1) dummySeg).added_at)

/-- What one entry contributes to `count_shelves()[s]`: 1 as an active order
on shelf `s`, plus 1 as a historical waste order when `s` is `WASTE`. -/
def contrib (st : OrderState) (s : String) : ℕ :=
  (if st.closed = false ∧ st.current_shelf = s then 1 else 0) +
    (if s = WASTE ∧ st.current_shelf = WASTE then 1 else 0)

/-- The order-number keys of the state table are distinct (intake enumerates
orders with consecutive integers). -/
def KeysNodup (k : Kitchen) : Prop :=
  (k.orders_state.map Prod.fst).Nodup

/-- Every stored order has an input-validated temperature (`load_orders`
rejects others). -/
def TempsValid (k : Kitchen) : Prop :=
  ∀ p ∈ k.orders_state, p.2.order.temp ∈ shelf_types

/-- Spec invariant I3: every non-waste shelf holds at most its capacity. -/
def CapInv (k : Kitchen) : Prop :=
  ∀ s, s ≠ WASTE → k.countShelf s ≤ k.config.capacity s

/-- The inductive invariant carried through every lock-protected transition. -/
def KInv (k : Kitchen) : Prop :=
  KeysNodup k ∧ TempsValid k ∧ CapInv k

/-- A sample hot order (used to evaluate the theorems on concrete inputs). -/
def exOrder : Order :=
  { id := "a1", name := "taco", temp := "hot", shelfLife := 300, decayRate := 1 / 2 }

/-- A freshly placed state for `exOrder`, open on the hot shelf since `t = 1`. -/
def exOpen : OrderState :=
  OrderState.init exOrder (ShelfHistory.init "hot" 1) 1

/-- A closed one-segment state for `exOrder`. -/
def exClosed : OrderState :=
  { order := exOrder,
    history := [{ shelf := "hot", added_at := 1, removed_at := some 2, current_value := some (1 / 2) }],
    pickup_sec := 1, last_value := some (1 / 2) }

/-- A fast-decaying order for the `move_to_waste` counterexample. -/
def cOrder : Order :=
  { id := "b2", name := "ice", temp := "hot", shelfLife := 1, decayRate := 1 }

/-- `cOrder` open on the hot shelf since `t = 0`. -/
def cOpen : OrderState :=
  OrderState.init cOrder (ShelfHistory.init "hot" 0) 1

/-- `cOpen` wasted at `t = 2` with the explicit (stale) value `-1/2`, as
`remove_unhealty` does with its computed `val`. -/
def cWasted : OrderState :=
  cOpen.move_to_waste (some (-1 / 2)) 2

/-- `cOpen` wasted by the cleanup path at `t = 1` with no explicit value. -/
def exWasted : OrderState :=
  cOpen.move_to_waste none 1

/-- A sample configuration with every capacity 1. -/
def cfg1 : Config :=
  { capacity := fun _ => 1, intake_orders_per_sec := 1, pickup_min_sec := 1, pickup_max_sec := 1 }

/-- A degenerate configuration with every capacity 0 (cf. test scenario 4's
`{hot:0,...}` shape). -/
def cfg0 : Config :=
  { capacity := fun _ => 0, intake_orders_per_sec := 1, pickup_min_sec := 1, pickup_max_sec := 1 }

/-- `exOrder` open on the hot shelf since `t = 0`. -/
def stHot : OrderState :=
  OrderState.init exOrder (ShelfHistory.init "hot" 0) 1

/-- `exOrder` open on the overflow shelf since `t = 1`. -/
def stOver : OrderState :=
  OrderState.init exOrder (ShelfHistory.init "overflow" 1) 1

/-- Kitchen with the hot shelf full. -/
def kHotFull : Kitchen :=
  { config := cfg1, orders_state := [(0, stHot)], dispatch_events := fun _ => false }

/-- Kitchen with the hot shelf and the overflow shelf both full, and the
overflow occupant's home shelf full too (no recovery possible). -/
def kAllFull : Kitchen :=
  { config := cfg1, orders_state := [(0, stHot), (1, stOver)], dispatch_events := fun _ => false }

/-! ### Helper lemmas: `pyOr` and `modifyLastSeg` -/

theorem pyOr_some_self (b : ℚ) : pyOr (some b) b = b := by
  simp [pyOr]

theorem pyOr_none_eq (b : ℚ) : pyOr none b = b := rfl

theorem modifyLastSeg_eq (f : ShelfHistory → ShelfHistory) :
    ∀ (l : List ShelfHistory), l ≠ [] →
      modifyLastSeg l f = l.dropLast ++ [f (l.getLastD dummySeg)] := by
  intro l
  induction l with
  | nil => intro h; exact absurd rfl h
  | cons a t ih =>
    intro _
    cases t with
    | nil => simp [modifyLastSeg]
    | cons b r =>
      have h2 : (b :: r) ≠ [] := by simp
      simp only [modifyLastSeg, ih h2, List.dropLast_cons₂, List.getLastD_cons,
        List.cons_append]

theorem modifyLastSeg_length (l : List ShelfHistory) (f : ShelfHistory → ShelfHistory) :
    (modifyLastSeg l f).length = l.length := by
  by_cases h : l = []
  · subst h; rfl
  · rw [modifyLastSeg_eq f l h]
    have := List.length_pos.mpr h
    simp only [List.length_append, List.length_dropLast, List.length_singleton]
    omega

theorem modifyLastSeg_dropLast (l : List ShelfHistory) (f : ShelfHistory → ShelfHistory) :
    (modifyLastSeg l f).dropLast = l.dropLast := by
  by_cases h : l = []
  · subst h; rfl
  · rw [modifyLastSeg_eq f l h, List.dropLast_concat]

theorem modifyLastSeg_getLastD (l : List ShelfHistory) (f : ShelfHistory → ShelfHistory)
    (h : l ≠ []) : (modifyLastSeg l f).getLastD dummySeg = f (l.getLastD dummySeg) := by
  rw [modifyLastSeg_eq f l h, List.getLastD_concat]

theorem modifyLastSeg_map (l : List ShelfHistory) (f : ShelfHistory → ShelfHistory)
    {β : Type} (g : ShelfHistory → β) (hgf : ∀ a, g (f a) = g a) :
    (modifyLastSeg l f).map g = l.map g := by
  by_cases h : l = []
  · subst h; rfl
  · rw [modifyLastSeg_eq f l h, List.map_append]
    conv_rhs => rw [← List.dropLast_append_getLast h, List.map_append]
    simp only [List.map_cons, List.map_nil, hgf]
    rw [List.getLastD_eq_getLast?, List.getLast?_eq_getLast l h]
    rfl

theorem modifyLastSeg_getD_of_lt (l : List ShelfHistory) (f : ShelfHistory → ShelfHistory)
    (i : ℕ) (d : ShelfHistory) (hi : i + 1 < l.length) :
    (modifyLastSeg l f).getD i d = l.getD i d := by
  have h : l ≠ [] := by
    intro h0; subst h0; simp at hi
  rw [modifyLastSeg_eq f l h]
  rw [List.getD_eq_getElem?_getD, List.getD_eq_getElem?_getD]
  rw [List.getElem?_append_left (by simp; omega)]
  rw [List.getElem?_dropLast, if_pos (by omega)]

theorem getLastD_eq_getD (l : List ShelfHistory) (h : l ≠ []) :
    l.getLastD dummySeg = l.getD (l.length - 1) dummySeg := by
  rw [List.getLastD_eq_getLast?, List.getLast?_eq_getLast l h]
  rw [List.getD_eq_getElem?_getD]
  rw [List.getLast_eq_getElem]
  rw [List.getElem?_eq_getElem (by have := List.length_pos.mpr h; omega)]

/-! ### Structure of `OrderState.close` -/

theorem closed_false_iff (s : OrderState) : s.closed = false ↔ s.lastSeg.removed_at = none := by
  unfold OrderState.closed
  cases s.lastSeg.removed_at <;> simp

theorem close_of_closed (s : OrderState) (v r : Option ℚ) (now : ℚ) (h : s.closed = true) :
    s.close v r now = s := by
  simp [OrderState.close, h]

theorem close_eq_of_open (s : OrderState) (v r : Option ℚ) (now : ℚ) (h : s.closed = false) :
    s.close v r now =
      (let s1 : OrderState := { s with history := modifyLastSeg s.history (fun hh => { hh with removed_at := some (pyOr r now) }) }
      { s1 with
          history := modifyLastSeg s1.history (fun hh => { hh with current_value := some (pyOr v (s1.value now)) }),
          last_value := some (pyOr v (s1.value now)) }) := by
  simp [OrderState.close, h]

theorem close_history_length (s : OrderState) (v r : Option ℚ) (now : ℚ) :
    (s.close v r now).history.length = s.history.length := by
  by_cases h : s.closed = true
  · rw [close_of_closed s v r now h]
  · rw [close_eq_of_open s v r now (by simpa using h)]
    simp [modifyLastSeg_length]

theorem close_order (s : OrderState) (v r : Option ℚ) (now : ℚ) :
    (s.close v r now).order = s.order := by
  by_cases h : s.closed = true
  · rw [close_of_closed s v r now h]
  · rw [close_eq_of_open s v r now (by simpa using h)]

theorem close_pickup_sec (s : OrderState) (v r : Option ℚ) (now : ℚ) :
    (s.close v r now).pickup_sec = s.pickup_sec := by
  by_cases h : s.closed = true
  · rw [close_of_closed s v r now h]
  · rw [close_eq_of_open s v r now (by simpa using h)]

/-- Stamping the open last segment with `removed_at := now` does not change the
value computed at `now` (the source recomputes `value()` after the mutation). -/
theorem value_stamp (s : OrderState) (now : ℚ) (hopen : s.lastSeg.removed_at = none) :
    OrderState.value { s with history := modifyLastSeg s.history (fun hh => { hh with removed_at := some now }) } now = s.value now := by
  by_cases h0 : s.history = []
  · obtain ⟨o, hist, ps, lv⟩ := s
    simp only at h0
    subst h0
    rfl
  · have hrates : (OrderState.decay_rates { s with history := modifyLastSeg s.history (fun hh => { hh with removed_at := some now }) }) = s.decay_rates := by
      simp only [OrderState.decay_rates, OrderState.decay_modifiers]
      rw [modifyLastSeg_map]
      intro a; rfl
    have hages : (OrderState.ages { s with history := modifyLastSeg s.history (fun hh => { hh with removed_at := some now }) } now) = s.ages now := by
      simp only [OrderState.ages, modifyLastSeg_dropLast]
      have hlast : OrderState.lastSeg { s with history := modifyLastSeg s.history (fun hh => { hh with removed_at := some now }) } =
          { s.lastSeg with removed_at := some now } := by
        simp only [OrderState.lastSeg]
        exact modifyLastSeg_getLastD s.history _ h0
      simp [OrderState.current_age, hlast, hopen, pyOr_some_self, pyOr]
    simp [OrderState.value, hages, hrates]

/-- Normal form of `close` on an open state when the effective closing
timestamp is `now` (i.e. `removed_at` is absent or `now` itself, the only ways
the program calls it): the last segment is stamped with `now`, its recorded
value is the argument or — when the argument is falsy — the value recomputed at
`now`, and `last_value` mirrors it. -/
theorem close_spec_now (s : OrderState) (v r : Option ℚ) (now : ℚ)
    (hcl : s.closed = false) (hne : s.history ≠ []) (hr : pyOr r now = now) :
    (s.close v r now).lastSeg =
      { s.lastSeg with removed_at := some now, current_value := some (pyOr v (s.value now)) } ∧
    (s.close v r now).last_value = some (pyOr v (s.value now)) ∧
    (s.close v r now).history.dropLast = s.history.dropLast := by
  have hopen := (closed_false_iff s).mp hcl
  rw [close_eq_of_open s v r now hcl]
  simp only [hr]
  have hne1 : modifyLastSeg s.history (fun hh => { hh with removed_at := some now }) ≠ [] := by
    intro hx
    apply hne
    have hlen := modifyLastSeg_length s.history (fun hh => { hh with removed_at := some now })
    rw [hx] at hlen
    exact List.eq_nil_of_length_eq_zero hlen.symm
  refine ⟨?_, ?_, ?_⟩
  · simp only [OrderState.lastSeg]
    rw [modifyLastSeg_getLastD _ _ hne1, modifyLastSeg_getLastD _ _ hne]
    rw [value_stamp s now hopen]
  · rw [value_stamp s now hopen]
  · simp only [modifyLastSeg_dropLast]

/-! ### Structure of `move` and `move_to_waste` -/

theorem close_history_of_open (s : OrderState) (v r : Option ℚ) (now : ℚ) (hcl : s.closed = false) :
    (s.close v r now).history =
      modifyLastSeg (modifyLastSeg s.history (fun hh => { hh with removed_at := some (pyOr r now) }))
        (fun hh => { hh with current_value := some (pyOr v (OrderState.value { s with history := modifyLastSeg s.history (fun hh2 => { hh2 with removed_at := some (pyOr r now) }) } now)) }) := by
  rw [close_eq_of_open s v r now hcl]

theorem move_history (s : OrderState) (sh : String) (v : Option ℚ) (now : ℚ) :
    (s.move sh v now).history = (s.close v (some now) now).history ++ [ShelfHistory.init sh now] := rfl

theorem move_order (s : OrderState) (sh : String) (v : Option ℚ) (now : ℚ) :
    (s.move sh v now).order = s.order := by
  simp [OrderState.move, close_order]

theorem move_pickup_sec (s : OrderState) (sh : String) (v : Option ℚ) (now : ℚ) :
    (s.move sh v now).pickup_sec = s.pickup_sec := by
  simp [OrderState.move, close_pickup_sec]

theorem move_lastSeg (s : OrderState) (sh : String) (v : Option ℚ) (now : ℚ) :
    (s.move sh v now).lastSeg = ShelfHistory.init sh now := by
  simp [OrderState.lastSeg, move_history, List.getLastD_concat]

theorem move_closed (s : OrderState) (sh : String) (v : Option ℚ) (now : ℚ) :
    (s.move sh v now).closed = false := by
  simp [OrderState.closed, move_lastSeg, ShelfHistory.init]

theorem move_current_shelf (s : OrderState) (sh : String) (v : Option ℚ) (now : ℚ) :
    (s.move sh v now).current_shelf = sh := by
  simp [OrderState.current_shelf, move_lastSeg, ShelfHistory.init]

theorem move_history_ne (s : OrderState) (sh : String) (v : Option ℚ) (now : ℚ) :
    (s.move sh v now).history ≠ [] := by
  rw [move_history]
  simp

theorem ages_length (s : OrderState) (now : ℚ) (hne : s.history ≠ []) :
    (s.ages now).length = s.history.length := by
  have := List.length_pos.mpr hne
  simp only [OrderState.ages, List.length_append, List.length_map, List.length_dropLast,
    List.length_singleton]
  omega

theorem decay_rates_eq_map (s : OrderState) :
    s.decay_rates = s.history.map (fun hh => s.order.decayRate * (if s.order.temp = hh.shelf then 1 else 2)) := by
  simp [OrderState.decay_rates, OrderState.decay_modifiers, List.map_map]

/-- The per-segment ages of a just-closed state, read back from the recorded
timestamps, are exactly the ages at closing time. -/
theorem close_map_age (s : OrderState) (v r : Option ℚ) (now : ℚ)
    (hcl : s.closed = false) (hne : s.history ≠ []) (hr : pyOr r now = now) :
    (s.close v r now).history.map (fun hh => hh.removed_at.getD 0 - hh.added_at) = s.ages now := by
  rw [close_history_of_open s v r now hcl, modifyLastSeg_map]
  · rw [modifyLastSeg_eq _ _ hne, List.map_append]
    unfold OrderState.ages
    congr 1
    simp only [List.map_cons, List.map_nil, hr]
    have hopen := (closed_false_iff s).mp hcl
    simp only [OrderState.lastSeg, List.getLastD_eq_getLast?] at hopen
    simp [OrderState.current_age, OrderState.lastSeg, hopen, pyOr]
  · intro a
    rfl

theorem close_map_shelf_fun (s : OrderState) (v r : Option ℚ) (now : ℚ)
    {β : Type} (g : ShelfHistory → β) (hg : ∀ a b c, g { a with removed_at := b, current_value := c } = g a) :
    (s.close v r now).history.map g = s.history.map g := by
  by_cases h : s.closed = true
  · rw [close_of_closed s v r now h]
  · rw [close_history_of_open s v r now (by simpa using h)]
    rw [modifyLastSeg_map, modifyLastSeg_map]
    · intro a; exact hg a _ _
    · intro a; exact hg a _ _

/-- Moving to a new shelf and evaluating at the very timestamp of the move
leaves the value unchanged: the new segment contributes age 0. -/
theorem move_value_now (s : OrderState) (sh : String) (v : Option ℚ) (now : ℚ)
    (hcl : s.closed = false) (hne : s.history ≠ []) :
    (s.move sh v now).value now = s.value now := by
  have hr : pyOr (some now) now = now := pyOr_some_self now
  have hagesm : (s.move sh v now).ages now = s.ages now ++ [0] := by
    simp only [OrderState.ages, move_history, List.dropLast_concat]
    rw [close_map_age s v (some now) now hcl hne hr]
    congr 1
    simp [OrderState.current_age, move_lastSeg, ShelfHistory.init, pyOr]
  have hratesm : (s.move sh v now).decay_rates =
      s.history.map (fun hh => s.order.decayRate * (if s.order.temp = hh.shelf then 1 else 2)) ++
        [s.order.decayRate * (if s.order.temp = sh then 1 else 2)] := by
    rw [decay_rates_eq_map, move_order, move_history, List.map_append, close_map_shelf_fun]
    · simp [ShelfHistory.init]
    · intro a b c
      rfl
  have hlen : (s.ages now).length = (s.history.map (fun hh => s.order.decayRate * (if s.order.temp = hh.shelf then 1 else 2))).length := by
    rw [ages_length s now hne, List.length_map]
  unfold OrderState.value
  rw [hagesm, hratesm, move_order, List.zipWith_append _ _ _ _ _ hlen]
  rw [← decay_rates_eq_map]
  simp

theorem mtw_history (s : OrderState) (v : Option ℚ) (now : ℚ) :
    (s.move_to_waste v now).history =
      modifyLastSeg ((s.move WASTE v now).close none (some now) now).history
        (fun h => { h with current_value := ((((s.move WASTE v now).close none (some now) now).history.dropLast.getLastD dummySeg)).current_value }) := rfl

theorem mtw_last_value_eq (s : OrderState) (v : Option ℚ) (now : ℚ) :
    (s.move_to_waste v now).last_value =
      ((s.move WASTE v now).close none (some now) now).last_value := rfl

theorem mtw_order (s : OrderState) (v : Option ℚ) (now : ℚ) :
    (s.move_to_waste v now).order = s.order := by
  have h1 : (s.move_to_waste v now).order = ((s.move WASTE v now).close none (some now) now).order := rfl
  rw [h1, close_order, move_order]

theorem mtw_pickup_sec (s : OrderState) (v : Option ℚ) (now : ℚ) :
    (s.move_to_waste v now).pickup_sec = s.pickup_sec := by
  have h1 : (s.move_to_waste v now).pickup_sec = ((s.move WASTE v now).close none (some now) now).pickup_sec := rfl
  rw [h1, close_pickup_sec, move_pickup_sec]

/-- What `move_to_waste` produces: a closed segment on `WASTE` whose recorded
value is inherited from the segment it closed, while `last_value` holds the
value freshly recomputed at the transition timestamp. -/
theorem mtw_spec (s : OrderState) (v : Option ℚ) (now : ℚ) :
    (s.move_to_waste v now).current_shelf = WASTE ∧
    (s.move_to_waste v now).closed = true ∧
    (s.move_to_waste v now).lastSeg.current_value = (s.close v (some now) now).lastSeg.current_value ∧
    (s.move_to_waste v now).last_value = some ((s.move WASTE v now).value now) := by
  have hcl1 : (s.move WASTE v now).closed = false := move_closed s WASTE v now
  have hne1 : (s.move WASTE v now).history ≠ [] := move_history_ne s WASTE v now
  obtain ⟨hlast2, hlv2, hdrop2⟩ :=
    close_spec_now (s.move WASTE v now) none (some now) now hcl1 hne1 (pyOr_some_self now)
  have hne2 : ((s.move WASTE v now).close none (some now) now).history ≠ [] := by
    intro hx
    apply hne1
    have hlen := close_history_length (s.move WASTE v now) none (some now) now
    rw [hx] at hlen
    exact List.eq_nil_of_length_eq_zero hlen.symm
  have hmlast : (s.move_to_waste v now).lastSeg =
      { ((s.move WASTE v now).close none (some now) now).lastSeg with
          current_value := ((((s.move WASTE v now).close none (some now) now).history.dropLast.getLastD dummySeg)).current_value } := by
    have h1 : (s.move_to_waste v now).lastSeg = (s.move_to_waste v now).history.getLastD dummySeg := rfl
    rw [h1, mtw_history]
    exact modifyLastSeg_getLastD _ _ hne2
  have hprev : (((s.move WASTE v now).close none (some now) now).history.dropLast.getLastD dummySeg) =
      (s.close v (some now) now).lastSeg := by
    rw [hdrop2, move_history, List.dropLast_concat]
    rfl
  refine ⟨?_, ?_, ?_, ?_⟩
  · have h2 : (s.move_to_waste v now).current_shelf = (s.move_to_waste v now).lastSeg.shelf := rfl
    rw [h2, hmlast]
    simp only [hlast2, move_lastSeg]
    rfl
  · have h2 : (s.move_to_waste v now).closed = (s.move_to_waste v now).lastSeg.removed_at.isSome := rfl
    rw [h2, hmlast]
    simp [hlast2]
  · rw [hmlast]
    simp only [hprev]
  · rw [mtw_last_value_eq, hlv2]
    rfl

/-- After any `close` that actually closes (open last segment), the stored
`last_value` and the last segment's recorded `current_value` are the same
option value. -/
theorem close_mirror (s : OrderState) (v r : Option ℚ) (now : ℚ)
    (hcl : s.closed = false) (hne : s.history ≠ []) :
    (s.close v r now).last_value = (s.close v r now).lastSeg.current_value := by
  have hne1 : modifyLastSeg s.history (fun hh => { hh with removed_at := some (pyOr r now) }) ≠ [] := by
    intro hx
    apply hne
    have hlen := modifyLastSeg_length s.history (fun hh => { hh with removed_at := some (pyOr r now) })
    rw [hx] at hlen
    exact List.eq_nil_of_length_eq_zero hlen.symm
  rw [close_eq_of_open s v r now hcl]
  simp only [OrderState.lastSeg]
  rw [modifyLastSeg_getLastD _ _ hne1]

/-! ### Claim theorems: OrderState layer -/

/-- C8: `close` is idempotent — on a state whose last segment is already
closed, a further call with any arguments leaves the state unchanged; on an
open segment the defaults record `removed_at = now` and the freshly recomputed
`value()`, mirrored into `last_value`. -/
theorem close_idempotent_defaults (s : OrderState) (v r : Option ℚ) (now : ℚ)
    (hne : s.history ≠ []) :
    (s.closed = true → s.close v r now = s) ∧
    (s.closed = false →
      (s.close none none now).lastSeg.removed_at = some now ∧
      (s.close none none now).lastSeg.current_value = some (s.value now) ∧
      (s.close none none now).last_value = some (s.value now)) := by
  constructor
  · intro h
    exact close_of_closed s v r now h
  · intro h
    obtain ⟨h1, h2, _⟩ := close_spec_now s none none now h hne (pyOr_none_eq now)
    exact ⟨by rw [h1], by rw [h1]; rfl, by rw [h2]; rfl⟩

theorem close_idempotent_defaults_witness :
    (exClosed.close (some 7) (some 9) 5 = exClosed) ∧
    ((exOpen.close none none 2).lastSeg.removed_at = some 2 ∧
      (exOpen.close none none 2).lastSeg.current_value = some (exOpen.value 2) ∧
      (exOpen.close none none 2).last_value = some (exOpen.value 2)) :=
  ⟨(close_idempotent_defaults exClosed (some 7) (some 9) 5 (by decide)).1 (by decide),
    (close_idempotent_defaults exOpen none none 2 (by decide)).2 (by decide)⟩

/-- C9: `move_to_waste` on an already-wasted (closed, on `waste`) order leaves
an equivalent state: still on `waste`, still closed, and with the same
recorded value on the final segment (inherited unchanged). -/
theorem move_to_waste_idempotent (s : OrderState) (v : Option ℚ) (now : ℚ)
    (_hw : s.current_shelf = WASTE) (hcl : s.closed = true) :
    (s.move_to_waste v now).current_shelf = WASTE ∧
    (s.move_to_waste v now).closed = true ∧
    (s.move_to_waste v now).lastSeg.current_value = s.lastSeg.current_value := by
  have hm := mtw_spec s v now
  refine ⟨hm.1, hm.2.1, ?_⟩
  rw [hm.2.2.1, close_of_closed s v (some now) now hcl]

theorem move_to_waste_idempotent_witness :
    exWasted.current_shelf = WASTE ∧ exWasted.closed = true ∧
    ((exWasted.move_to_waste (some 3) 2).current_shelf = WASTE ∧
      (exWasted.move_to_waste (some 3) 2).closed = true ∧
      (exWasted.move_to_waste (some 3) 2).lastSeg.current_value = exWasted.lastSeg.current_value) :=
  ⟨by decide, by decide, move_to_waste_idempotent exWasted (some 3) 2 (by decide) (by decide)⟩

/-- C10: `close` tests its `value` argument for truthiness, not presence: an
explicit `0.0` behaves exactly like an absent argument (the segment records the
freshly recomputed `value()`, not `0.0`), while any nonzero argument is stored
as given.  (`remove_unhealty` passes its computed `val ≤ 0` down this path via
`move_to_waste(value=val)`.) -/
theorem close_zero_value_truthiness (s : OrderState) (now w : ℚ)
    (hcl : s.closed = false) (hne : s.history ≠ []) (hw : w ≠ 0) :
    s.close (some 0) (some now) now = s.close none (some now) now ∧
    (s.close (some 0) (some now) now).lastSeg.current_value = some (s.value now) ∧
    (s.close (some 0) (some now) now).last_value = some (s.value now) ∧
    (s.close (some w) (some now) now).lastSeg.current_value = some w ∧
    (s.close (some w) (some now) now).last_value = some w := by
  obtain ⟨h01, h02, _⟩ := close_spec_now s (some 0) (some now) now hcl hne (pyOr_some_self now)
  obtain ⟨hw1, hw2, _⟩ := close_spec_now s (some w) (some now) now hcl hne (pyOr_some_self now)
  refine ⟨?_, ?_, ?_, ?_, ?_⟩
  · rw [close_eq_of_open s (some 0) (some now) now hcl, close_eq_of_open s none (some now) now hcl]
    simp [pyOr]
  · rw [h01]
    simp [pyOr]
  · rw [h02]
    simp [pyOr]
  · rw [hw1]
    simp [pyOr, hw]
  · rw [hw2]
    simp [pyOr, hw]

theorem close_zero_value_truthiness_witness :
    (exOpen.close (some 0) (some 2) 2 = exOpen.close none (some 2) 2 ∧
      (exOpen.close (some 0) (some 2) 2).lastSeg.current_value = some (exOpen.value 2) ∧
      (exOpen.close (some 0) (some 2) 2).last_value = some (exOpen.value 2) ∧
      (exOpen.close (some (-3)) (some 2) 2).lastSeg.current_value = some (-3) ∧
      (exOpen.close (some (-3)) (some 2) 2).last_value = some (-3)) :=
  close_zero_value_truthiness exOpen 2 (-3) (by decide) (by decide) (by decide)

/-- C6 fails on the code: wasting `cOpen` at `t = 2` with the explicit stale
value `-1/2` (as `remove_unhealty` does) leaves `last_value` holding the value
recomputed at `t = 2` (namely `-1`), while the closed waste segment's
`current_value` holds the inherited `-1/2`. -/
theorem last_value_mirror_cex :
    cWasted.current_shelf = WASTE ∧ cWasted.closed = true ∧
    cWasted.last_value ≠ cWasted.lastSeg.current_value := by
  have hcl : cOpen.closed = false := by decide
  have hne : cOpen.history ≠ [] := by decide
  have hm := mtw_spec cOpen (some (-1 / 2)) 2
  have hval : cOpen.value 2 = -1 := by
    norm_num [cOpen, cOrder, OrderState.value, OrderState.ages, OrderState.current_age,
      OrderState.decay_rates, OrderState.decay_modifiers, OrderState.init, ShelfHistory.init,
      OrderState.lastSeg, pyOr]
  obtain ⟨hcv, _, _⟩ := close_spec_now cOpen (some (-1 / 2)) (some 2) 2 hcl hne (pyOr_some_self 2)
  refine ⟨hm.1, hm.2.1, ?_⟩
  show (cOpen.move_to_waste (some (-1 / 2)) 2).last_value ≠ (cOpen.move_to_waste (some (-1 / 2)) 2).lastSeg.current_value
  rw [hm.2.2.2, hm.2.2.1, hcv, move_value_now cOpen WASTE (some (-1 / 2)) 2 hcl hne, hval]
  norm_num [pyOr]

/-- C6 amended: after `close` on an open segment, `last_value` equals the last
segment's recorded `current_value`; and after `move_to_waste` *with no explicit
value* (as `make_room`'s eviction calls it) `last_value` equals the waste
segment's inherited `current_value`.  With an explicit nonzero value the two
fields diverge (see the counterexample). -/
theorem last_value_mirror_amended (s : OrderState) (v r : Option ℚ) (now : ℚ)
    (hcl : s.closed = false) (hne : s.history ≠ []) :
    (s.close v r now).last_value = (s.close v r now).lastSeg.current_value ∧
    (s.move_to_waste none now).last_value = (s.move_to_waste none now).lastSeg.current_value := by
  constructor
  · exact close_mirror s v r now hcl hne
  · have hm := mtw_spec s none now
    rw [hm.2.2.2, hm.2.2.1]
    obtain ⟨_, _, _⟩ := close_spec_now s none (some now) now hcl hne (pyOr_some_self now)
    rw [move_value_now s WASTE none now hcl hne]
    rename_i h1 h2 h3
    rw [h1]
    rfl

theorem last_value_mirror_amended_witness :
    ((exOpen.close (some 7) none 2).last_value = (exOpen.close (some 7) none 2).lastSeg.current_value ∧
      (exOpen.move_to_waste none 2).last_value = (exOpen.move_to_waste none 2).lastSeg.current_value) :=
  last_value_mirror_amended exOpen (some 7) none 2 (by decide) (by decide)

/-! ### C4: the decay formula -/

theorem zipWith_mul_sum_eq_range (a b : List ℚ) (h : a.length = b.length) :
    (List.zipWith (· * ·) a b).sum =
      ((List.range a.length).map (fun i => a.getD i 0 * b.getD i 0)).sum := by
  induction a generalizing b with
  | nil => simp
  | cons x xs ih =>
    cases b with
    | nil => simp at h
    | cons y ys =>
      simp only [List.zipWith_cons_cons, List.sum_cons, List.range_succ_eq_map, List.map_cons,
        List.map_map, List.length_cons]
      rw [ih ys (by simpa using h)]
      congr 1

theorem getD_map_rat (l : List ShelfHistory) (h : ShelfHistory → ℚ) (i : ℕ) (hi : i < l.length) :
    (l.map h).getD i 0 = h (l.getD i dummySeg) := by
  rw [List.getD_eq_getElem?_getD, List.getD_eq_getElem?_getD, List.getElem?_map,
    List.getElem?_eq_getElem hi]
  rfl

/-- C4: `value` is 1 minus the sum, over history segments, of the segment age
times `order.decayRate` times the temperature-match modifier, divided by the
shelf life; and on a single open segment `ttl` is the shelf life divided by the
first segment's decay rate. -/
theorem value_formula_ttl (s : OrderState) (now : ℚ) (hne : s.history ≠ []) :
    s.value now = 1 - ((List.range s.history.length).map (fun i =>
        (s.ages now).getD i 0 * (s.order.decayRate * (if s.order.temp = (s.history.getD i dummySeg).shelf then 1 else 2)))).sum / (s.order.shelfLife : ℚ) ∧
    (∀ h0 : ShelfHistory, s.history = [h0] → h0.removed_at = none →
      s.ttl now = (s.order.shelfLife : ℚ) / (s.order.decayRate * (if s.order.temp = h0.shelf then 1 else 2))) := by
  constructor
  · unfold OrderState.value
    rw [decay_rates_eq_map]
    rw [zipWith_mul_sum_eq_range _ _ (by rw [ages_length s now hne, List.length_map])]
    rw [ages_length s now hne]
    congr 2
    apply congrArg List.sum
    apply List.map_congr_left
    intro i hi
    rw [getD_map_rat _ _ i (List.mem_range.mp hi)]
  · intro h0 hh _
    simp [OrderState.ttl, OrderState.ages, OrderState.decay_rates, OrderState.decay_modifiers, hh]

theorem value_formula_ttl_witness :
    (exOpen.value 2 = 1 - ((List.range exOpen.history.length).map (fun i =>
        (exOpen.ages 2).getD i 0 * (exOpen.order.decayRate * (if exOpen.order.temp = (exOpen.history.getD i dummySeg).shelf then 1 else 2)))).sum / (exOpen.order.shelfLife : ℚ)) ∧
    exOpen.ttl 2 = (exOpen.order.shelfLife : ℚ) / (exOpen.order.decayRate * (if exOpen.order.temp = (ShelfHistory.init "hot" 1).shelf then 1 else 2)) :=
  ⟨(value_formula_ttl exOpen 2 (by decide)).1,
    (value_formula_ttl exOpen 2 (by decide)).2 (ShelfHistory.init "hot" 1) rfl rfl⟩

/-! ### C5: one timestamp per transition, chained histories -/

theorem modifyLastSeg_getD_last (l : List ShelfHistory) (f : ShelfHistory → ShelfHistory)
    (h : l ≠ []) :
    (modifyLastSeg l f).getD (l.length - 1) dummySeg = f (l.getD (l.length - 1) dummySeg) := by
  have hm : modifyLastSeg l f ≠ [] := by
    intro hx
    apply h
    have hlen := modifyLastSeg_length l f
    rw [hx] at hlen
    exact List.eq_nil_of_length_eq_zero hlen.symm
  have h1 := getLastD_eq_getD (modifyLastSeg l f) hm
  rw [modifyLastSeg_length] at h1
  rw [← h1, modifyLastSeg_getLastD l f h, getLastD_eq_getD l h]

theorem chained_modifyLastSeg (l : List ShelfHistory) (f : ShelfHistory → ShelfHistory)
    (hf : ∀ h, (f h).added_at = h.added_at) (hc : Chained l) : Chained (modifyLastSeg l f) := by
  intro i hi
  rw [modifyLastSeg_length] at hi
  rw [modifyLastSeg_getD_of_lt l f i dummySeg hi]
  by_cases h2 : i + 1 + 1 = l.length
  · have hlne : l ≠ [] := by
      intro h0
      rw [h0] at hi
      simp at hi
    have hidx : i + 1 = l.length - 1 := by omega
    rw [hidx, modifyLastSeg_getD_last l f hlne, hf, ← hidx]
    exact hc i hi
  · rw [modifyLastSeg_getD_of_lt l f (i + 1) dummySeg (by omega)]
    exact hc i hi

theorem getD_append_lt (l : List ShelfHistory) (seg : ShelfHistory) (i : ℕ) (hi : i < l.length) :
    (l ++ [seg]).getD i dummySeg = l.getD i dummySeg := by
  rw [List.getD_eq_getElem?_getD, List.getD_eq_getElem?_getD, List.getElem?_append_left hi]

theorem getD_concat_length (l : List ShelfHistory) (seg : ShelfHistory) :
    (l ++ [seg]).getD l.length dummySeg = seg := by
  rw [List.getD_eq_getElem?_getD, List.getElem?_append_right (le_refl _)]
  simp

theorem chained_concat (l : List ShelfHistory) (seg : ShelfHistory) (hc : Chained l)
    (hlink : l ≠ [] → (l.getLastD dummySeg).removed_at = some seg.added_at) :
    Chained (l ++ [seg]) := by
  intro i hi
  simp only [List.length_append, List.length_singleton] at hi
  by_cases h2 : i + 1 < l.length
  · rw [getD_append_lt l seg i (by omega), getD_append_lt l seg (i + 1) h2]
    exact hc i h2
  · have hilen : i + 1 = l.length := by omega
    have hlne : l ≠ [] := by
      intro h0
      rw [h0] at hilen
      simp at hilen
    rw [hilen, getD_concat_length, getD_append_lt l seg i (by omega)]
    have hgd : l.getLastD dummySeg = l.getD i dummySeg := by
      rw [getLastD_eq_getD l hlne]
      congr 1
      omega
    rw [← hgd]
    exact hlink hlne

theorem chained_close (s : OrderState) (v r : Option ℚ) (now : ℚ) (hc : Chained s.history) :
    Chained (s.close v r now).history := by
  by_cases h : s.closed = true
  · rw [close_of_closed s v r now h]
    exact hc
  · rw [close_history_of_open s v r now (by simpa using h)]
    apply chained_modifyLastSeg
    · intro hh
      rfl
    · apply chained_modifyLastSeg
      · intro hh
        rfl
      · exact hc

theorem chained_move (s : OrderState) (sh : String) (v : Option ℚ) (now : ℚ)
    (hcl : s.closed = false) (hc : Chained s.history) : Chained (s.move sh v now).history := by
  rw [move_history]
  apply chained_concat _ _ (chained_close s v (some now) now hc)
  intro hne'
  have hne : s.history ≠ [] := by
    intro h0
    apply hne'
    rw [close_history_of_open s v (some now) now hcl, h0]
    rfl
  obtain ⟨h1, _, _⟩ := close_spec_now s v (some now) now hcl hne (pyOr_some_self now)
  have hls : (s.close v (some now) now).history.getLastD dummySeg =
      (s.close v (some now) now).lastSeg := rfl
  rw [hls, h1]
  rfl

theorem chained_mtw (s : OrderState) (v : Option ℚ) (now : ℚ)
    (hcl : s.closed = false) (hc : Chained s.history) :
    Chained (s.move_to_waste v now).history := by
  rw [mtw_history]
  apply chained_modifyLastSeg
  · intro hh
    rfl
  · exact chained_close _ none (some now) now (chained_move s WASTE v now hcl hc)

theorem sreach_chained (t : OrderState) (ht : SReach t) : Chained t.history := by
  induction ht with
  | init o sh now p =>
    intro i hi
    simp [OrderState.init] at hi
  | close s v r now _ ih => exact chained_close s v r now ih
  | move s sh v now _ hcl ih => exact chained_move s sh v now hcl ih
  | mtw s v now _ hcl ih => exact chained_mtw s v now hcl ih

/-- C5: `move` on an open state closes the last segment and appends the new one
with one shared timestamp (`removed_at` of the closed segment equals `added_at`
of the appended segment, both `now`); consequently every history reachable
through the program's state operations is exactly chained (invariant I2). -/
theorem move_timestamp_chained (s : OrderState) (sh : String) (v : Option ℚ) (now : ℚ)
    (hcl : s.closed = false) (hne : s.history ≠ []) :
    (((s.move sh v now).history.dropLast.getLastD dummySeg).removed_at = some now ∧
      ((s.move sh v now).history.getLastD dummySeg).added_at = now) ∧
    (∀ t : OrderState, SReach t → Chained t.history) := by
  refine ⟨⟨?_, ?_⟩, fun t ht => sreach_chained t ht⟩
  · rw [move_history, List.dropLast_concat]
    obtain ⟨h1, _, _⟩ := close_spec_now s v (some now) now hcl hne (pyOr_some_self now)
    have hls : (s.close v (some now) now).history.getLastD dummySeg =
        (s.close v (some now) now).lastSeg := rfl
    rw [hls, h1]
  · rw [move_history, List.getLastD_concat]
    rfl

theorem move_timestamp_chained_witness :
    (((exOpen.move "overflow" none 3).history.dropLast.getLastD dummySeg).removed_at = some 3 ∧
      ((exOpen.move "overflow" none 3).history.getLastD dummySeg).added_at = 3) ∧
    ((exOpen.move "overflow" none 3).history.getD 0 dummySeg).removed_at =
      some (((exOpen.move "overflow" none 3).history.getD 1 dummySeg).added_at) :=
  ⟨(move_timestamp_chained exOpen "overflow" none 3 (by decide) (by decide)).1,
    (move_timestamp_chained exOpen "overflow" none 3 (by decide) (by decide)).2
      (exOpen.move "overflow" none 3)
      (SReach.move exOpen "overflow" none 3 (SReach.init exOrder "hot" 1 1) (by decide))
      0 (by decide)⟩

/-! ### C1: the Config dataclass has no cleanup_delay field -/

/-- C1 fails on the code: the `Config` dataclass declares exactly
`capacity`, `intake_orders_per_sec`, `pickup_min_sec`, `pickup_max_sec` — no
`cleanup_delay` — so `load_config` rejects every config JSON containing the
documented `cleanup_delay` key (`Config(**config)` raises `TypeError`), even
though `Kitchen.cleanup` waits on `self.config.cleanup_delay` every cycle. -/
theorem cleanup_delay_key_rejected (keys capacityKeys : List String)
    (hmem : "cleanup_delay" ∈ keys) :
    configKwargsAccepted keys = false ∧ load_config_accepts keys capacityKeys = false := by
  have h1 : configKwargsAccepted keys = false := by
    unfold configKwargsAccepted
    rw [Bool.and_eq_false_iff]
    left
    rw [List.all_eq_false]
    exact ⟨"cleanup_delay", hmem, by decide⟩
  refine ⟨h1, ?_⟩
  unfold load_config_accepts
  rw [h1]
  rfl

theorem cleanup_delay_key_rejected_witness :
    configKwargsAccepted ["capacity", "intake_orders_per_sec", "pickup_min_sec", "pickup_max_sec", "cleanup_delay"] = false ∧
    load_config_accepts ["capacity", "intake_orders_per_sec", "pickup_min_sec", "pickup_max_sec", "cleanup_delay"] ["hot", "cold", "frozen", "overflow"] = false :=
  cleanup_delay_key_rejected _ _ (by decide)

/-! ### C7: eviction with no active overflow order crashes -/

/-- C7, evaluated at the failing input: when `make_room` reaches the eviction
step (desired shelf full, overflow full, nothing recoverable) with no active
overflow order, it does not return a shelf — `min_value` on the empty dict
leaves `order_num` unassigned and the call raises `UnboundLocalError`
(modelled as `none`).  Note the divergence from the required process abort:
`make_room` runs inside a daemon `fulfill_order` thread, so the raise kills
only that thread with a traceback; the process continues and exits 0. -/
theorem make_room_no_active_overflow_crash (k : Kitchen) (desired : String) (now : ℚ)
    (hd : ¬ k.countShelf desired < k.config.capacity desired)
    (ho : ¬ k.countShelf OVERFLOW < k.config.capacity OVERFLOW)
    (hempty : k.shelf_orders OVERFLOW = []) :
    k.make_room desired now = none := by
  unfold Kitchen.make_room
  rw [if_neg hd, if_neg ho]
  have hrec : k.recover_from_overflow now = some (k, 0) := by
    unfold Kitchen.recover_from_overflow Kitchen.find_recoverable_orders
    rw [hempty]
    rfl
  rw [hrec]
  simp [hempty, min_value]

theorem make_room_no_active_overflow_crash_witness :
    (Kitchen.init cfg0).make_room "hot" 1 = none :=
  make_room_no_active_overflow_crash (Kitchen.init cfg0) "hot" 1 (by decide) (by decide) rfl

/-! ### `min_value` -/

theorem foldl_minStep_some (l : List (ℕ × ℚ)) (x : ℕ × ℚ) :
    ∃ y, l.foldl minStep (some x) = some y ∧ (y = x ∨ y ∈ l) ∧ y.2 ≤ x.2 ∧ ∀ q ∈ l, y.2 ≤ q.2 := by
  induction l generalizing x with
  | nil => exact ⟨x, rfl, Or.inl rfl, le_refl _, by simp⟩
  | cons p rest ih =>
    rw [List.foldl_cons]
    by_cases hp : p.2 < x.2
    · rw [show minStep (some x) p = some p by simp [minStep, hp]]
      obtain ⟨y, hy, hmem, hle, hall⟩ := ih p
      refine ⟨y, hy, ?_, le_trans hle (le_of_lt hp), ?_⟩
      · rcases hmem with h | h
        · exact Or.inr (h ▸ List.mem_cons_self p rest)
        · exact Or.inr (List.mem_cons_of_mem p h)
      · intro q hq
        rcases List.mem_cons.mp hq with rfl | h
        · exact hle
        · exact hall q h
    · rw [show minStep (some x) p = some x by simp [minStep, hp]]
      obtain ⟨y, hy, hmem, hle, hall⟩ := ih x
      refine ⟨y, hy, ?_, hle, ?_⟩
      · rcases hmem with h | h
        · exact Or.inl h
        · exact Or.inr (List.mem_cons_of_mem p h)
      · intro q hq
        rcases List.mem_cons.mp hq with rfl | h
        · exact le_trans hle (not_lt.mp hp)
        · exact hall q h

theorem min_value_eq_none (l : List (ℕ × ℚ)) (h : min_value l = none) :
    ∀ q ∈ l, MAXINT ≤ q.2 := by
  induction l with
  | nil =>
    intro q hq
    simp at hq
  | cons p rest ih =>
    intro q hq
    unfold min_value at h
    rw [List.foldl_cons] at h
    by_cases hp : p.2 < MAXINT
    · rw [show minStep none p = some p by simp [minStep, hp]] at h
      obtain ⟨y, hy, _, _, _⟩ := foldl_minStep_some rest p
      rw [hy] at h
      exact absurd h (by simp)
    · rw [show minStep none p = none by simp [minStep, hp]] at h
      rcases List.mem_cons.mp hq with rfl | hq'
      · exact not_lt.mp hp
      · exact ih h q hq'

theorem min_value_eq_some (l : List (ℕ × ℚ)) (p : ℕ × ℚ) (h : min_value l = some p) :
    p ∈ l ∧ p.2 < MAXINT ∧ ∀ q ∈ l, p.2 ≤ q.2 := by
  induction l with
  | nil => simp [min_value] at h
  | cons p0 rest ih =>
    unfold min_value at h
    rw [List.foldl_cons] at h
    by_cases hp0 : p0.2 < MAXINT
    · rw [show minStep none p0 = some p0 by simp [minStep, hp0]] at h
      obtain ⟨y, hy, hmem, hle, hall⟩ := foldl_minStep_some rest p0
      rw [hy, Option.some.injEq] at h
      subst h
      refine ⟨?_, lt_of_le_of_lt hle hp0, ?_⟩
      · rcases hmem with h1 | h1
        · exact h1 ▸ List.mem_cons_self p0 rest
        · exact List.mem_cons_of_mem p0 h1
      · intro q hq
        rcases List.mem_cons.mp hq with rfl | hq'
        · exact hle
        · exact hall q hq'
    · rw [show minStep none p0 = none by simp [minStep, hp0]] at h
      have ihh := ih h
      refine ⟨List.mem_cons_of_mem p0 ihh.1, ihh.2.1, ?_⟩
      intro q hq
      rcases List.mem_cons.mp hq with rfl | hq'
      · exact le_of_lt (lt_of_lt_of_le ihh.2.1 (not_lt.mp hp0))
      · exact ihh.2.2 q hq'

theorem min_value_total (l : List (ℕ × ℚ)) (q : ℕ × ℚ) (hq : q ∈ l) (hlt : q.2 < MAXINT) :
    ∃ p, min_value l = some p := by
  cases h : min_value l with
  | none => exact absurd (min_value_eq_none l h q hq) (not_le.mpr hlt)
  | some p => exact ⟨p, rfl⟩

/-! ### Association-list and counting lemmas -/

theorem shelf_orders_mem (k : Kitchen) (sh : String) (num : ℕ) (st : OrderState) :
    (num, st) ∈ k.shelf_orders sh ↔
      (num, st) ∈ k.orders_state ∧ st.closed = false ∧ st.current_shelf = sh := by
  unfold Kitchen.shelf_orders Kitchen.active_orders
  simp only [List.mem_filter, decide_eq_true_eq, Bool.not_eq_true']
  tauto

theorem nodup_key_unique (l : List (ℕ × OrderState)) (hnd : (l.map Prod.fst).Nodup)
    (num : ℕ) (st st' : OrderState) (h1 : (num, st) ∈ l) (h2 : (num, st') ∈ l) : st = st' := by
  induction l with
  | nil => simp at h1
  | cons p rest ih =>
    rw [List.map_cons, List.nodup_cons] at hnd
    rcases List.mem_cons.mp h1 with he1 | he1 <;> rcases List.mem_cons.mp h2 with he2 | he2
    · rw [← he1] at he2
      exact (congrArg Prod.snd he2).symm
    · exfalso
      apply hnd.1
      rw [← he1]
      simpa using List.mem_map_of_mem Prod.fst he2
    · exfalso
      apply hnd.1
      rw [← he2]
      simpa using List.mem_map_of_mem Prod.fst he1
    · exact ih hnd.2 he1 he2

theorem updateOrder_map_fst (l : List (ℕ × OrderState)) (num : ℕ) (f : OrderState → OrderState) :
    (updateOrder l num f).map Prod.fst = l.map Prod.fst := by
  unfold updateOrder
  rw [List.map_map]
  apply List.map_congr_left
  intro p _
  by_cases h : p.1 = num <;> simp [h]

theorem updateOrder_mem_self (l : List (ℕ × OrderState)) (num : ℕ) (st : OrderState)
    (f : OrderState → OrderState) (hmem : (num, st) ∈ l) :
    (num, f st) ∈ updateOrder l num f := by
  unfold updateOrder
  have := List.mem_map_of_mem (fun p : ℕ × OrderState => if p.1 = num then (p.1, f p.2) else p) hmem
  simpa using this

theorem updateOrder_mem_ne (l : List (ℕ × OrderState)) (num : ℕ) (f : OrderState → OrderState)
    (q : ℕ × OrderState) (hq : q ∈ updateOrder l num f) (hne : q.1 ≠ num) : q ∈ l := by
  unfold updateOrder at hq
  obtain ⟨p, hp, he⟩ := List.mem_map.mp hq
  by_cases h : p.1 = num
  · rw [if_pos h] at he
    exfalso
    apply hne
    rw [← he]
    exact h
  · rw [if_neg h] at he
    rw [← he]
    exact hp

theorem updateOrder_mem_eq (l : List (ℕ × OrderState)) (hnd : (l.map Prod.fst).Nodup)
    (num : ℕ) (st : OrderState) (f : OrderState → OrderState) (hmem : (num, st) ∈ l)
    (st' : OrderState) (h : (num, st') ∈ updateOrder l num f) : st' = f st := by
  unfold updateOrder at h
  obtain ⟨p, hp, he⟩ := List.mem_map.mp h
  by_cases hc : p.1 = num
  · rw [if_pos hc] at he
    have hst : p.2 = st := by
      apply nodup_key_unique l hnd num p.2 st _ hmem
      rw [← hc]
      exact hp
    have h2 : f p.2 = st' := congrArg Prod.snd he
    rw [← h2, hst]
  · rw [if_neg hc] at he
    exact absurd (congrArg Prod.fst he) hc

theorem mem_map_ttl (k : Kitchen) (now : ℚ) (num : ℕ) (v : ℚ)
    (h : (num, v) ∈ (k.shelf_orders OVERFLOW).map (fun p => (p.1, p.2.pickup_ttl now))) :
    ∃ st, (num, st) ∈ k.shelf_orders OVERFLOW ∧ v = st.pickup_ttl now := by
  obtain ⟨⟨a, st⟩, hp, he⟩ := List.mem_map.mp h
  simp only [Prod.mk.injEq] at he
  exact ⟨st, he.1 ▸ hp, he.2.symm⟩

/-! ### C2: the allocator policy -/

/-- C2: `make_room` returns the desired shelf when its live count is below
capacity; otherwise `overflow` when that has room; and when overflow is full
and nothing is recoverable it wastes the active overflow order with the
smallest `pickup_ttl`, cancels that order's pending courier, and returns
`overflow` (all other entries untouched). -/
theorem make_room_policy (k : Kitchen) (d : String) (now : ℚ) (hnd : KeysNodup k) :
    (k.countShelf d < k.config.capacity d → k.make_room d now = some (k, d)) ∧
    (¬ k.countShelf d < k.config.capacity d →
      k.countShelf OVERFLOW < k.config.capacity OVERFLOW →
      k.make_room d now = some (k, OVERFLOW)) ∧
    (¬ k.countShelf d < k.config.capacity d →
      ¬ k.countShelf OVERFLOW < k.config.capacity OVERFLOW →
      k.recover_from_overflow now = some (k, 0) →
      (∃ q, q ∈ k.shelf_orders OVERFLOW ∧ q.2.pickup_ttl now < MAXINT) →
      ∃ num st k1,
        (num, st) ∈ k.orders_state ∧ st.closed = false ∧ st.current_shelf = OVERFLOW ∧
        (∀ q ∈ k.orders_state, q.2.closed = false → q.2.current_shelf = OVERFLOW →
          st.pickup_ttl now ≤ q.2.pickup_ttl now) ∧
        k.make_room d now = some (k1, OVERFLOW) ∧
        k1.dispatch_events num = true ∧
        (∀ st', (num, st') ∈ k1.orders_state →
          st' = st.move_to_waste none now ∧ st'.current_shelf = WASTE ∧ st'.closed = true) ∧
        (∀ q ∈ k1.orders_state, q.1 ≠ num → q ∈ k.orders_state)) := by
  refine ⟨?_, ?_, ?_⟩
  · intro h
    unfold Kitchen.make_room
    rw [if_pos h]
  · intro h1 h2
    unfold Kitchen.make_room
    rw [if_neg h1, if_pos h2]
  · intro h1 h2 hrec hex
    obtain ⟨q, hq, hqlt⟩ := hex
    have hqm : (q.1, q.2.pickup_ttl now) ∈
        (k.shelf_orders OVERFLOW).map (fun p => (p.1, p.2.pickup_ttl now)) :=
      List.mem_map_of_mem _ hq
    obtain ⟨⟨num, v⟩, hmv⟩ := min_value_total _ _ hqm hqlt
    obtain ⟨hmem_ttl, _, hmin⟩ := min_value_eq_some _ _ hmv
    obtain ⟨st, hst_mem, hveq⟩ := mem_map_ttl k now num v hmem_ttl
    obtain ⟨hst_os, hst_open, hst_ov⟩ := (shelf_orders_mem k OVERFLOW num st).mp hst_mem
    refine ⟨num, st,
      Kitchen.terminate_delivery { k with orders_state := updateOrder k.orders_state num (fun st0 => st0.move_to_waste none now) } num,
      hst_os, hst_open, hst_ov, ?_, ?_, ?_, ?_, ?_⟩
    · intro q' hq' hq'c hq's
      have hq'm : (q'.1, q'.2.pickup_ttl now) ∈
          (k.shelf_orders OVERFLOW).map (fun p => (p.1, p.2.pickup_ttl now)) :=
        List.mem_map_of_mem _ ((shelf_orders_mem k OVERFLOW q'.1 q'.2).mpr
          ⟨by simpa using hq', hq'c, hq's⟩)
      have hle := hmin _ hq'm
      rw [← hveq]
      exact hle
    · unfold Kitchen.make_room
      rw [if_neg h1, if_neg h2, hrec]
      simp only [hmv, if_true]
    · simp [Kitchen.terminate_delivery]
    · intro st' hst'
      have hst2 : (num, st') ∈ updateOrder k.orders_state num (fun st0 => st0.move_to_waste none now) := hst'
      have hupd : st' = st.move_to_waste none now :=
        updateOrder_mem_eq k.orders_state hnd num st _ hst_os st' hst2
      refine ⟨hupd, ?_, ?_⟩
      · rw [hupd]
        exact (mtw_spec st none now).1
      · rw [hupd]
        exact (mtw_spec st none now).2.1
    · intro q' hq' hne
      have hq2 : q' ∈ updateOrder k.orders_state num (fun st0 => st0.move_to_waste none now) := hq'
      exact updateOrder_mem_ne _ _ _ _ hq2 hne

theorem make_room_policy_witness :
    (Kitchen.init cfg1).make_room "hot" 1 = some (Kitchen.init cfg1, "hot") ∧
    kHotFull.make_room "hot" 1 = some (kHotFull, OVERFLOW) ∧
    (∃ num st k1,
      (num, st) ∈ kAllFull.orders_state ∧ st.closed = false ∧ st.current_shelf = OVERFLOW ∧
      (∀ q ∈ kAllFull.orders_state, q.2.closed = false → q.2.current_shelf = OVERFLOW →
        st.pickup_ttl 2 ≤ q.2.pickup_ttl 2) ∧
      kAllFull.make_room "hot" 2 = some (k1, OVERFLOW) ∧
      k1.dispatch_events num = true ∧
      (∀ st', (num, st') ∈ k1.orders_state →
        st' = st.move_to_waste none 2 ∧ st'.current_shelf = WASTE ∧ st'.closed = true) ∧
      (∀ q ∈ k1.orders_state, q.1 ≠ num → q ∈ kAllFull.orders_state)) := by
  refine ⟨(make_room_policy (Kitchen.init cfg1) "hot" 1 (by unfold KeysNodup; decide)).1 (by decide),
    (make_room_policy kHotFull "hot" 1 (by unfold KeysNodup; decide)).2.1 (by decide) (by decide),
    (make_room_policy kAllFull "hot" 2 (by unfold KeysNodup; decide)).2.2 (by decide) (by decide) rfl ?_⟩
  have hmem : (1, stOver) ∈ kAllFull.shelf_orders OVERFLOW := by
    simp [kAllFull, Kitchen.shelf_orders, Kitchen.active_orders, stHot, stOver,
      OrderState.closed, OrderState.current_shelf, OrderState.lastSeg, OrderState.init,
      ShelfHistory.init, OVERFLOW]
  refine ⟨(1, stOver), hmem, ?_⟩
  show stOver.pickup_ttl 2 < MAXINT
  norm_num [stOver, exOrder, OrderState.pickup_ttl, OrderState.ttl, OrderState.ages,
    OrderState.current_age, OrderState.decay_rates, OrderState.decay_modifiers,
    OrderState.init, ShelfHistory.init, OrderState.lastSeg, pyOr, MAXINT,
    show ("hot" : String) ≠ "overflow" from by decide,
    show ("hot" : String) ≠ "waste" from by decide]

/-! ### Counting infrastructure for the capacity invariant -/

theorem modifyLastSeg_ne_nil (l : List ShelfHistory) (f : ShelfHistory → ShelfHistory)
    (h : l ≠ []) : modifyLastSeg l f ≠ [] := by
  intro hx
  apply h
  have hlen := modifyLastSeg_length l f
  rw [hx] at hlen
  exact List.eq_nil_of_length_eq_zero hlen.symm

theorem close_current_shelf (st : OrderState) (v r : Option ℚ) (now : ℚ) :
    (st.close v r now).current_shelf = st.current_shelf := by
  by_cases h : st.closed = true
  · rw [close_of_closed st v r now h]
  · unfold OrderState.current_shelf OrderState.lastSeg
    rw [close_history_of_open st v r now (by simpa using h)]
    by_cases hne : st.history = []
    · rw [hne]
      rfl
    · rw [modifyLastSeg_getLastD _ _ (modifyLastSeg_ne_nil _ _ hne), modifyLastSeg_getLastD _ _ hne]

theorem close_closed_of_open (st : OrderState) (v r : Option ℚ) (now : ℚ)
    (hcl : st.closed = false) (hne : st.history ≠ []) :
    (st.close v r now).closed = true := by
  unfold OrderState.closed OrderState.lastSeg
  rw [close_history_of_open st v r now hcl]
  rw [modifyLastSeg_getLastD _ _ (modifyLastSeg_ne_nil _ _ hne), modifyLastSeg_getLastD _ _ hne]
  rfl

theorem contrib_move (st : OrderState) (home s : String) (v : Option ℚ) (now : ℚ)
    (hhw : home ≠ WASTE) :
    contrib (st.move home v now) s = if home = s then 1 else 0 := by
  unfold contrib
  rw [move_closed, move_current_shelf]
  by_cases h : home = s
  · subst h
    simp [hhw]
  · simp [h, hhw]

theorem contrib_mtw (st : OrderState) (s : String) (v : Option ℚ) (now : ℚ) (hs : s ≠ WASTE) :
    contrib (st.move_to_waste v now) s = 0 := by
  unfold contrib
  rw [(mtw_spec st v now).2.1]
  simp [hs]

theorem contrib_close_le (st : OrderState) (v r : Option ℚ) (now : ℚ) (s : String)
    (hs : s ≠ WASTE) : contrib (st.close v r now) s ≤ contrib st s := by
  by_cases h : st.closed = true
  · rw [close_of_closed st v r now h]
  · by_cases hne : st.history = []
    · have h1 : (st.close v r now).closed = st.closed := by
        unfold OrderState.closed OrderState.lastSeg
        rw [close_history_of_open st v r now (by simpa using h), hne]
        rfl
      have h2 : (st.close v r now).current_shelf = st.current_shelf :=
        close_current_shelf st v r now
      unfold contrib
      rw [h1, h2]
    · unfold contrib
      rw [close_closed_of_open st v r now (by simpa using h) hne]
      simp [hs]

theorem count_list_eq (s : String) (hs : s ≠ WASTE) :
    ∀ l : List (ℕ × OrderState),
      ((l.filter (fun p => !p.2.closed)).filter (fun p => p.2.current_shelf = s)).length =
        (l.map (fun p => contrib p.2 s)).sum := by
  intro l
  induction l with
  | nil => simp
  | cons p rest ih =>
    rw [List.filter_cons]
    by_cases hcl : p.2.closed = false
    · rw [if_pos (by simp [hcl])]
      rw [List.filter_cons]
      by_cases hsh : p.2.current_shelf = s
      · rw [if_pos (by simp [hsh])]
        simp only [List.length_cons, List.map_cons, List.sum_cons, ih]
        have : contrib p.2 s = 1 := by
          unfold contrib
          simp [hcl, hsh, hs]
        omega
      · rw [if_neg (by simp [hsh])]
        simp only [List.map_cons, List.sum_cons, ih]
        have : contrib p.2 s = 0 := by
          unfold contrib
          simp [hsh, hs]
        omega
    · rw [if_neg (by simp [hcl])]
      simp only [List.map_cons, List.sum_cons, ih]
      have : contrib p.2 s = 0 := by
        unfold contrib
        simp [hcl, hs]
      omega

theorem countShelf_eq_sum (k : Kitchen) (s : String) (hs : s ≠ WASTE) :
    k.countShelf s = (k.orders_state.map (fun p => contrib p.2 s)).sum := by
  unfold Kitchen.countShelf Kitchen.active_orders
  rw [if_neg hs, Nat.add_zero]
  exact count_list_eq s hs k.orders_state

theorem updateOrder_sum_contrib (num : ℕ) (st : OrderState) (f : OrderState → OrderState)
    (s : String) :
    ∀ l : List (ℕ × OrderState), (l.map Prod.fst).Nodup → (num, st) ∈ l →
      ((updateOrder l num f).map (fun p => contrib p.2 s)).sum + contrib st s =
        (l.map (fun p => contrib p.2 s)).sum + contrib (f st) s := by
  intro l
  induction l with
  | nil =>
    intro _ hmem
    simp at hmem
  | cons p rest ih =>
    intro hnd hmem
    rw [List.map_cons, List.nodup_cons] at hnd
    unfold updateOrder
    simp only [List.map_cons, List.sum_cons]
    rcases List.mem_cons.mp hmem with he | he
    · have hp1 : p.1 = num := by rw [← he]
      have hp2 : p.2 = st := by rw [← he]
      have hhead : (if p.1 = num then (p.1, f p.2) else p) = (num, f st) := by
        rw [if_pos hp1, hp1, hp2]
      have hid : ∀ q ∈ rest, (if q.1 = num then (q.1, f q.2) else q) = q := by
        intro q hq
        rw [if_neg]
        intro hx
        apply hnd.1
        rw [hp1, ← hx]
        simpa using List.mem_map_of_mem Prod.fst hq
      rw [hhead, List.map_congr_left hid]
      have hmapid : rest.map (fun q => q) = rest := by simp
      rw [hmapid]
      have hc2 : contrib (num, f st).2 s = contrib (f st) s := rfl
      rw [hc2, hp2]
      omega
    · have hne : p.1 ≠ num := by
        intro hx
        apply hnd.1
        rw [hx]
        simpa using List.mem_map_of_mem Prod.fst he
      rw [if_neg hne]
      rw [show rest.map (fun q => if q.1 = num then (q.1, f q.2) else q) = updateOrder rest num f from rfl]
      have := ih hnd.2 he
      omega

theorem updateOrder_sum_le (num : ℕ) (f : OrderState → OrderState) (s : String)
    (hf : ∀ st, contrib (f st) s ≤ contrib st s) :
    ∀ l : List (ℕ × OrderState),
      ((updateOrder l num f).map (fun p => contrib p.2 s)).sum ≤
        (l.map (fun p => contrib p.2 s)).sum := by
  intro l
  induction l with
  | nil => simp [updateOrder]
  | cons p rest ih =>
    unfold updateOrder
    simp only [List.map_cons, List.sum_cons]
    by_cases h : p.1 = num
    · simp only [if_pos h]
      have := ih
      unfold updateOrder at this
      exact Nat.add_le_add (hf p.2) this
    · simp only [if_neg h]
      have := ih
      unfold updateOrder at this
      exact Nat.add_le_add_left this _

theorem updateOrder_temps (l : List (ℕ × OrderState)) (num : ℕ) (f : OrderState → OrderState)
    (hf : ∀ st, (f st).order = st.order)
    (h : ∀ p ∈ l, p.2.order.temp ∈ shelf_types) :
    ∀ p ∈ updateOrder l num f, p.2.order.temp ∈ shelf_types := by
  intro p hp
  unfold updateOrder at hp
  obtain ⟨p0, hp0, he⟩ := List.mem_map.mp hp
  by_cases hc : p0.1 = num
  · rw [if_pos hc] at he
    rw [← he]
    show (f p0.2).order.temp ∈ shelf_types
    rw [hf]
    exact h p0 hp0
  · rw [if_neg hc] at he
    rw [← he]
    exact h p0 hp0

theorem find_recoverable_mem (k : Kitchen) (num : ℕ) (u : ℚ)
    (h : (num, u) ∈ k.find_recoverable_orders) :
    ∃ st, (num, st) ∈ k.shelf_orders OVERFLOW ∧
      k.countShelf st.order.temp < k.config.capacity st.order.temp := by
  unfold Kitchen.find_recoverable_orders at h
  obtain ⟨⟨a, st⟩, hp, he⟩ := List.mem_filterMap.mp h
  by_cases hc : k.countShelf st.order.temp < k.config.capacity st.order.temp
  · rw [if_pos hc] at he
    simp only [Option.some.injEq, Prod.mk.injEq] at he
    exact ⟨st, he.1 ▸ hp, hc⟩
  · rw [if_neg hc] at he
    exact absurd he (by simp)

theorem recover_spec (k : Kitchen) (now : ℚ) (k' : Kitchen) (n : ℕ)
    (hinv : KInv k) (h : k.recover_from_overflow now = some (k', n)) :
    k'.config = k.config ∧
    k'.orders_state.map Prod.fst = k.orders_state.map Prod.fst ∧
    ((k' = k ∧ n = 0) ∨
      (n = 1 ∧ KInv k' ∧ k'.countShelf OVERFLOW + 1 = k.countShelf OVERFLOW)) := by
  unfold Kitchen.recover_from_overflow at h
  by_cases hemp : k.find_recoverable_orders.isEmpty
  · rw [if_pos hemp] at h
    simp only [Option.some.injEq, Prod.mk.injEq] at h
    obtain ⟨hk, hn⟩ := h
    exact ⟨by rw [← hk], by rw [← hk], Or.inl ⟨hk.symm, hn.symm⟩⟩
  · rw [if_neg hemp] at h
    cases hmv : min_value k.find_recoverable_orders with
    | none =>
      rw [hmv] at h
      simp at h
    | some q =>
      obtain ⟨num, u⟩ := q
      rw [hmv] at h
      simp only [Option.some.injEq, Prod.mk.injEq] at h
      obtain ⟨hk, hn⟩ := h
      obtain ⟨hmem_rec, _, _⟩ := min_value_eq_some _ _ hmv
      obtain ⟨st, hst_sh, hcap_home⟩ := find_recoverable_mem k num u hmem_rec
      obtain ⟨hst_os, hst_open, hst_ov⟩ := (shelf_orders_mem k OVERFLOW num st).mp hst_sh
      obtain ⟨hnd, htmp, hcapinv⟩ := hinv
      have hhome_types : st.order.temp ∈ shelf_types := htmp (num, st) hst_os
      have hhome_ne : st.order.temp ≠ WASTE := by
        intro hx
        rw [hx] at hhome_types
        exact absurd hhome_types (by decide)
      have hhome_nov : st.order.temp ≠ OVERFLOW := by
        intro hx
        rw [hx] at hhome_types
        exact absurd hhome_types (by decide)
      have hos : k'.orders_state =
          updateOrder k.orders_state num (fun st0 => st0.move st0.order.temp none now) := by
        rw [← hk]
      have hcfg : k'.config = k.config := by rw [← hk]
      have hsum : ∀ s : String,
          (k'.orders_state.map (fun p => contrib p.2 s)).sum + contrib st s =
            (k.orders_state.map (fun p => contrib p.2 s)).sum +
              contrib (st.move st.order.temp none now) s := by
        intro s
        rw [hos]
        exact updateOrder_sum_contrib num st _ s k.orders_state hnd hst_os
      have hcst : ∀ s : String, contrib st s = if OVERFLOW = s then 1 else 0 := by
        intro s
        unfold contrib
        rw [hst_ov]
        simp [hst_open, show (OVERFLOW : String) ≠ WASTE from by decide]
      have hcmv : ∀ s : String, contrib (st.move st.order.temp none now) s =
          if st.order.temp = s then 1 else 0 :=
        fun s => contrib_move st st.order.temp s none now hhome_ne
      have hcount : ∀ s : String, s ≠ WASTE →
          k'.countShelf s + (if OVERFLOW = s then 1 else 0) =
            k.countShelf s + (if st.order.temp = s then 1 else 0) := by
        intro s hs
        rw [countShelf_eq_sum k' s hs, countShelf_eq_sum k s hs, ← hcst, ← hcmv]
        exact hsum s
      have hdec : k'.countShelf OVERFLOW + 1 = k.countShelf OVERFLOW := by
        have := hcount OVERFLOW (by decide)
        rw [if_pos rfl, if_neg hhome_nov] at this
        omega
      refine ⟨hcfg, by rw [hos]; exact updateOrder_map_fst _ _ _,
        Or.inr ⟨hn.symm, ⟨?_, ?_, ?_⟩, hdec⟩⟩
      · unfold KeysNodup
        rw [hos, updateOrder_map_fst]
        exact hnd
      · intro p hp
        rw [hos] at hp
        exact updateOrder_temps k.orders_state num _ (fun st0 => move_order st0 _ none now)
          htmp p hp
      · intro s hs
        rw [hcfg]
        by_cases hts : st.order.temp = s
        · have := hcount s hs
          rw [if_pos hts, if_neg (by rw [← hts]; exact fun hx => hhome_nov hx.symm)] at this
          rw [hts] at hcap_home
          omega
        · by_cases hov : OVERFLOW = s
          · have := hcount s hs
            rw [if_pos hov, if_neg hts] at this
            have hle := hcapinv s hs
            omega
          · have := hcount s hs
            rw [if_neg hov, if_neg hts] at this
            have hle := hcapinv s hs
            omega

theorem make_room_spec (k : Kitchen) (d : String) (now : ℚ) (k1 : Kitchen) (sh : String)
    (hinv : KInv k) (hd_ne : d ≠ WASTE) (h : k.make_room d now = some (k1, sh)) :
    KInv k1 ∧ k1.config = k.config ∧
    k1.orders_state.map Prod.fst = k.orders_state.map Prod.fst ∧
    sh ≠ WASTE ∧ k1.countShelf sh < k1.config.capacity sh := by
  unfold Kitchen.make_room at h
  by_cases hc1 : k.countShelf d < k.config.capacity d
  · rw [if_pos hc1] at h
    simp only [Option.some.injEq, Prod.mk.injEq] at h
    obtain ⟨hk, hsh⟩ := h
    rw [← hk, ← hsh]
    exact ⟨hinv, rfl, rfl, hd_ne, hc1⟩
  · rw [if_neg hc1] at h
    by_cases hc2 : k.countShelf OVERFLOW < k.config.capacity OVERFLOW
    · rw [if_pos hc2] at h
      simp only [Option.some.injEq, Prod.mk.injEq] at h
      obtain ⟨hk, hsh⟩ := h
      rw [← hk, ← hsh]
      exact ⟨hinv, rfl, rfl, by decide, hc2⟩
    · rw [if_neg hc2] at h
      cases hrec : k.recover_from_overflow now with
      | none =>
        rw [hrec] at h
        simp at h
      | some p =>
        obtain ⟨k2, n⟩ := p
        rw [hrec] at h
        simp only [Option.some.injEq, Prod.mk.injEq] at h
        obtain ⟨hcfg2, hkeys2, hcase⟩ := recover_spec k now k2 n hinv hrec
        by_cases hn : n = 0
        · rw [if_pos hn] at h
          have hk2 : k2 = k := by
            rcases hcase with ⟨he, _⟩ | ⟨h1, _, _⟩
            · exact he
            · rw [hn] at h1
              exact absurd h1 (by decide)
          subst hk2
          cases hmv : min_value ((k2.shelf_orders OVERFLOW).map (fun p => (p.1, p.2.pickup_ttl now))) with
          | none =>
            rw [hmv] at h
            simp at h
          | some q =>
            obtain ⟨num, v⟩ := q
            rw [hmv] at h
            simp only [Option.some.injEq, Prod.mk.injEq] at h
            obtain ⟨hk1, hshv⟩ := h
            obtain ⟨hmem_ttl, _, _⟩ := min_value_eq_some _ _ hmv
            obtain ⟨st, hst_sh, _⟩ := mem_map_ttl k2 now num v hmem_ttl
            obtain ⟨hst_os, hst_open, hst_ov⟩ := (shelf_orders_mem k2 OVERFLOW num st).mp hst_sh
            obtain ⟨hnd, htmp, hcapinv⟩ := hinv
            have hos : k1.orders_state =
                updateOrder k2.orders_state num (fun st0 => st0.move_to_waste none now) := by
              rw [← hk1]
              rfl
            have hcfg : k1.config = k2.config := by
              rw [← hk1]
              rfl
            have hev : k1.dispatch_events = fun m => if m = num then true else k2.dispatch_events m := by
              rw [← hk1]
              rfl
            have hsum : ∀ s : String,
                (k1.orders_state.map (fun p => contrib p.2 s)).sum + contrib st s =
                  (k2.orders_state.map (fun p => contrib p.2 s)).sum +
                    contrib (st.move_to_waste none now) s := by
              intro s
              rw [hos]
              exact updateOrder_sum_contrib num st _ s k2.orders_state hnd hst_os
            have hcst : ∀ s : String, contrib st s = if OVERFLOW = s then 1 else 0 := by
              intro s
              unfold contrib
              rw [hst_ov]
              simp [hst_open, show (OVERFLOW : String) ≠ WASTE from by decide]
            have hcount : ∀ s : String, s ≠ WASTE →
                k1.countShelf s + (if OVERFLOW = s then 1 else 0) = k2.countShelf s := by
              intro s hs
              rw [countShelf_eq_sum k1 s hs, countShelf_eq_sum k2 s hs, ← hcst]
              have := hsum s
              rw [contrib_mtw st s none now hs] at this
              omega
            have hdec : k1.countShelf OVERFLOW + 1 = k2.countShelf OVERFLOW := by
              have := hcount OVERFLOW (by decide)
              rw [if_pos rfl] at this
              exact this
            have hfull : k2.countShelf OVERFLOW = k2.config.capacity OVERFLOW := by
              have h1 := hcapinv OVERFLOW (by decide)
              omega
            rw [← hshv]
            refine ⟨⟨?_, ?_, ?_⟩, hcfg, by rw [hos]; exact updateOrder_map_fst _ _ _,
              by decide, ?_⟩
            · unfold KeysNodup
              rw [hos, updateOrder_map_fst]
              exact hnd
            · intro p hp
              rw [hos] at hp
              exact updateOrder_temps k2.orders_state num _ (fun st0 => mtw_order st0 none now)
                htmp p hp
            · intro s hs
              rw [hcfg]
              have := hcount s hs
              have hle := hcapinv s hs
              omega
            · rw [hcfg]
              omega
        · rw [if_neg hn] at h
          simp only [Option.some.injEq, Prod.mk.injEq] at h
          obtain ⟨hk1, hshv⟩ := h
          rcases hcase with ⟨_, h0⟩ | ⟨_, hkinv2, hdec⟩
          · exact absurd h0 hn
          · rw [← hk1, ← hshv]
            have hfull : k.countShelf OVERFLOW = k.config.capacity OVERFLOW := by
              have h1 := hinv.2.2 OVERFLOW (by decide)
              omega
            refine ⟨hkinv2, hcfg2, hkeys2, by decide, ?_⟩
            rw [hcfg2]
            omega

theorem fulfillInsert_kinv (k1 : Kitchen) (num : ℕ) (order : Order) (pickup : ℤ)
    (sh : String) (now : ℚ)
    (hinv : KInv k1) (hfresh : ∀ p ∈ k1.orders_state, p.1 ≠ num)
    (htemp : order.temp ∈ shelf_types) (_hsh_ne : sh ≠ WASTE)
    (hroom : k1.countShelf sh < k1.config.capacity sh) :
    KInv (fulfillInsert k1 num order pickup sh now) ∧
    (fulfillInsert k1 num order pickup sh now).config = k1.config := by
  obtain ⟨hnd, htm, hcap⟩ := hinv
  have hos : (fulfillInsert k1 num order pickup sh now).orders_state =
      k1.orders_state ++ [(num, OrderState.init order (ShelfHistory.init sh now) pickup)] := rfl
  refine ⟨⟨?_, ?_, ?_⟩, rfl⟩
  · unfold KeysNodup
    rw [hos, List.map_append]
    rw [List.nodup_append]
    refine ⟨hnd, by simp, ?_⟩
    intro a ha hb
    simp only [List.map_cons, List.map_nil, List.mem_singleton] at hb
    subst hb
    obtain ⟨q, hq, he⟩ := List.mem_map.mp ha
    exact hfresh q hq he
  · intro p hp
    rw [hos] at hp
    rcases List.mem_append.mp hp with h1 | h1
    · exact htm p h1
    · simp only [List.mem_singleton] at h1
      subst h1
      exact htemp
  · intro s hs
    rw [countShelf_eq_sum _ s hs, hos, List.map_append, List.sum_append]
    have hcon : contrib (OrderState.init order (ShelfHistory.init sh now) pickup) s =
        if sh = s then 1 else 0 := by
      unfold contrib OrderState.closed OrderState.current_shelf OrderState.lastSeg OrderState.init ShelfHistory.init
      simp [hs]
    simp only [List.map_cons, List.map_nil, List.sum_cons, List.sum_nil, hcon]
    rw [← countShelf_eq_sum k1 s hs]
    show k1.countShelf s + _ ≤ k1.config.capacity s
    by_cases hshs : sh = s
    · rw [if_pos hshs]
      rw [hshs] at hroom
      omega
    · rw [if_neg hshs]
      have := hcap s hs
      omega

theorem ruStep_kitchen (now : ℚ) (acc : Kitchen × ℕ × ℕ) (p : ℕ × OrderState) :
    (ruStep now acc p).1.config = acc.1.config ∧
    ((ruStep now acc p).1.orders_state.map Prod.fst = acc.1.orders_state.map Prod.fst) ∧
    (∀ q ∈ (ruStep now acc p).1.orders_state, ∃ q0 ∈ acc.1.orders_state, q.2.order = q0.2.order) ∧
    (∀ s, s ≠ WASTE → (ruStep now acc p).1.countShelf s ≤ acc.1.countShelf s) := by
  by_cases hval : p.2.value now ≤ 0
  · have hstep : ruStep now acc p =
        (Kitchen.terminate_delivery { acc.1 with orders_state := updateOrder acc.1.orders_state p.1 (fun st => st.move_to_waste (some (p.2.value now)) now) } p.1,
          acc.2.1 + 1, acc.2.2 + 1) := by
      unfold ruStep
      simp only [if_pos hval]
    rw [hstep]
    refine ⟨rfl, ?_, ?_, ?_⟩
    · exact updateOrder_map_fst acc.1.orders_state p.1
        (fun st => st.move_to_waste (some (p.2.value now)) now)
    · intro q hq
      have hq' : q ∈ updateOrder acc.1.orders_state p.1
          (fun st => st.move_to_waste (some (p.2.value now)) now) := hq
      obtain ⟨q0, hq0, he⟩ := List.mem_map.mp hq'
      by_cases hc : q0.1 = p.1
      · rw [if_pos hc] at he
        refine ⟨q0, hq0, ?_⟩
        rw [← he]
        exact mtw_order q0.2 _ now
      · rw [if_neg hc] at he
        exact ⟨q0, hq0, by rw [← he]⟩
    · intro s hs
      rw [countShelf_eq_sum _ s hs, countShelf_eq_sum acc.1 s hs]
      exact updateOrder_sum_le p.1 (fun st => st.move_to_waste (some (p.2.value now)) now) s
        (fun st => by rw [contrib_mtw st s _ now hs]; exact Nat.zero_le _) acc.1.orders_state
  · have hstep : ruStep now acc p = (acc.1, acc.2.1 + 1, acc.2.2) := by
      unfold ruStep
      simp only [if_neg hval]
    rw [hstep]
    exact ⟨rfl, rfl, fun q hq => ⟨q, hq, rfl⟩, fun s _ => le_refl _⟩

theorem foldl_ru (now : ℚ) (snap : List (ℕ × OrderState)) :
    ∀ acc : Kitchen × ℕ × ℕ,
      (snap.foldl (ruStep now) acc).1.config = acc.1.config ∧
      ((snap.foldl (ruStep now) acc).1.orders_state.map Prod.fst =
        acc.1.orders_state.map Prod.fst) ∧
      (∀ q ∈ (snap.foldl (ruStep now) acc).1.orders_state,
        ∃ q0 ∈ acc.1.orders_state, q.2.order = q0.2.order) ∧
      (∀ s, s ≠ WASTE → (snap.foldl (ruStep now) acc).1.countShelf s ≤ acc.1.countShelf s) := by
  induction snap with
  | nil =>
    intro acc
    exact ⟨rfl, rfl, fun q hq => ⟨q, hq, rfl⟩, fun s _ => le_refl _⟩
  | cons p rest ih =>
    intro acc
    rw [List.foldl_cons]
    obtain ⟨ic, im, io, il⟩ := ih (ruStep now acc p)
    obtain ⟨sc, sm, so, sl⟩ := ruStep_kitchen now acc p
    refine ⟨ic.trans sc, im.trans sm, ?_, fun s hs => le_trans (il s hs) (sl s hs)⟩
    intro q hq
    obtain ⟨q1, hq1, he1⟩ := io q hq
    obtain ⟨q0, hq0, he0⟩ := so q1 hq1
    exact ⟨q0, hq0, he1.trans he0⟩

theorem remove_unhealty_facts (k : Kitchen) (now : ℚ) :
    ((k.remove_unhealty now).1.config = k.config) ∧
    ((k.remove_unhealty now).1.orders_state.map Prod.fst = k.orders_state.map Prod.fst) ∧
    (∀ q ∈ (k.remove_unhealty now).1.orders_state, ∃ q0 ∈ k.orders_state, q.2.order = q0.2.order) ∧
    (∀ s, s ≠ WASTE → (k.remove_unhealty now).1.countShelf s ≤ k.countShelf s) :=
  foldl_ru now k.active_orders (k, 0, 0)

theorem cleanup_cycle_kinv (k : Kitchen) (now : ℚ) (k' : Kitchen)
    (hinv : KInv k) (h : k.cleanup_cycle now = some k') :
    KInv k' ∧ k'.config = k.config := by
  obtain ⟨rc, rm, ro, rl⟩ := remove_unhealty_facts k now
  have hinv_r : KInv (k.remove_unhealty now).1 := by
    obtain ⟨hnd, htm, hcap⟩ := hinv
    refine ⟨?_, ?_, ?_⟩
    · unfold KeysNodup
      rw [rm]
      exact hnd
    · intro p hp
      obtain ⟨q0, hq0, he⟩ := ro p hp
      rw [show p.2.order.temp = q0.2.order.temp from by rw [he]]
      exact htm q0 hq0
    · intro s hs
      rw [rc]
      exact le_trans (rl s hs) (hcap s hs)
  unfold Kitchen.cleanup_cycle at h
  cases hrec : (k.remove_unhealty now).1.recover_from_overflow now with
  | none =>
    rw [hrec] at h
    simp at h
  | some p =>
    obtain ⟨k2, n⟩ := p
    rw [hrec] at h
    simp only [Option.some.injEq] at h
    obtain ⟨hcfg2, _, hcase⟩ := recover_spec _ now k2 n hinv_r hrec
    subst h
    rcases hcase with ⟨he, _⟩ | ⟨_, hk2, _⟩
    · rw [he]
      exact ⟨hinv_r, rc⟩
    · exact ⟨hk2, hcfg2.trans rc⟩

theorem dispatchFinalize_kinv (k : Kitchen) (num : ℕ) (st : OrderState) (now : ℚ)
    (hinv : KInv k) :
    KInv (dispatchFinalize k num st now) ∧ (dispatchFinalize k num st now).config = k.config := by
  unfold dispatchFinalize
  by_cases hw : st.current_shelf = WASTE
  · rw [if_pos hw]
    exact ⟨hinv, rfl⟩
  · rw [if_neg hw]
    obtain ⟨hnd, htm, hcap⟩ := hinv
    refine ⟨⟨?_, ?_, ?_⟩, rfl⟩
    · unfold KeysNodup
      have h1 := updateOrder_map_fst k.orders_state num (fun s0 => s0.close none none now)
      show ((updateOrder k.orders_state num (fun s0 => s0.close none none now)).map Prod.fst).Nodup
      rw [h1]
      exact hnd
    · intro p hp
      exact updateOrder_temps k.orders_state num (fun s0 => s0.close none none now)
        (fun st0 => close_order st0 none none now) htm p hp
    · intro s hs
      rw [countShelf_eq_sum _ s hs]
      show ((updateOrder k.orders_state num (fun s0 => s0.close none none now)).map (fun p => contrib p.2 s)).sum ≤ k.config.capacity s
      apply le_trans (updateOrder_sum_le num (fun s0 => s0.close none none now) s
        (fun st0 => contrib_close_le st0 none none now s hs) k.orders_state)
      rw [← countShelf_eq_sum k s hs]
      exact hcap s hs

theorem step_kinv (k k' : Kitchen) (h : Step k k') (hinv : KInv k) :
    KInv k' ∧ k'.config = k.config := by
  cases h with
  | fulfill num order pickup now k1 sh hfresh htemp hmr =>
    have hd_ne : order.temp ≠ WASTE := by
      intro hx
      rw [hx] at htemp
      exact absurd htemp (by decide)
    obtain ⟨hkinv1, hcfg1, hkeys1, hsh_ne, hroom⟩ :=
      make_room_spec k order.temp now k1 sh hinv hd_ne hmr
    have hfresh1 : ∀ p ∈ k1.orders_state, p.1 ≠ num := by
      intro p hp hx
      have h1 : p.1 ∈ k1.orders_state.map Prod.fst := List.mem_map_of_mem Prod.fst hp
      rw [hkeys1] at h1
      obtain ⟨q, hq, he⟩ := List.mem_map.mp h1
      exact hfresh q hq (by rw [he, hx])
    obtain ⟨hkinv2, hcfg2⟩ :=
      fulfillInsert_kinv k1 num order pickup sh now hkinv1 hfresh1 htemp hsh_ne hroom
    exact ⟨hkinv2, hcfg2.trans hcfg1⟩
  | cleanup now _ hcc => exact cleanup_cycle_kinv k now k' hinv hcc
  | dispatch num st now hmem => exact dispatchFinalize_kinv k num st now hinv

theorem reachable_kinv (cfg : Config) (k : Kitchen) (h : Reachable cfg k) : KInv k := by
  unfold Reachable at h
  induction h with
  | refl =>
    refine ⟨by simp [KeysNodup, Kitchen.init], ?_, ?_⟩
    · intro p hp
      simp [Kitchen.init] at hp
    · intro s hs
      have : (Kitchen.init cfg).countShelf s = 0 := by
        simp [Kitchen.countShelf, Kitchen.active_orders, Kitchen.waste_orders, Kitchen.init]
      rw [this]
      exact Nat.zero_le _
  | tail _ hstep ih => exact (step_kinv _ _ hstep ih).1

/-! ### C3: the capacity invariant -/

/-- C3: in every state reachable through the program's lock-protected
transitions, each non-waste shelf `s` holds at most `capacity s` orders that
are not closed; in particular an insertion on the shelf `make_room` returns
(a `fulfill` step) never exceeds any capacity. -/
theorem capacity_invariant (cfg : Config) (k : Kitchen) (h : Reachable cfg k)
    (s : String) (hs : s ≠ WASTE) :
    (k.orders_state.filter (fun p => p.2.closed = false ∧ p.2.current_shelf = s)).length ≤
      k.config.capacity s := by
  have hinv := reachable_kinv cfg k h
  have hcount : (k.orders_state.filter (fun p => p.2.closed = false ∧ p.2.current_shelf = s)).length =
      k.countShelf s := by
    unfold Kitchen.countShelf Kitchen.active_orders
    rw [if_neg hs, Nat.add_zero, List.filter_filter]
    congr 1
    apply List.filter_congr
    intro p _
    cases hc : p.2.closed <;> simp [hc]
  rw [hcount]
  exact hinv.2.2 s hs

theorem capacity_invariant_witness :
    ((Kitchen.init cfg1).orders_state.filter
        (fun p => p.2.closed = false ∧ p.2.current_shelf = "hot")).length ≤
      (Kitchen.init cfg1).config.capacity "hot" ∧
    ((fulfillInsert (Kitchen.init cfg1) 0 exOrder 1 "hot" 1).orders_state.filter
        (fun p => p.2.closed = false ∧ p.2.current_shelf = "hot")).length ≤
      (fulfillInsert (Kitchen.init cfg1) 0 exOrder 1 "hot" 1).config.capacity "hot" :=
  ⟨capacity_invariant cfg1 (Kitchen.init cfg1) Relation.ReflTransGen.refl "hot" (by decide),
    capacity_invariant cfg1 (fulfillInsert (Kitchen.init cfg1) 0 exOrder 1 "hot" 1)
      (Relation.ReflTransGen.single
        (Step.fulfill (Kitchen.init cfg1) 0 exOrder 1 1 (Kitchen.init cfg1) "hot"
          (by intro p hp; simp [Kitchen.init] at hp) (by decide) rfl))
      "hot" (by decide)⟩

end OrdersSim
